import Mathlib

/-!
Verification of the metric-tree demo (`tree.c`): Hamming-distance metric,
BK-tree and VP-tree construction and range queries, and the linear-scan
baseline.  Keys are 32-bit integers modelled as `Nat` with explicit
`< 2^32` bounds.  Recursive tree construction is modelled with an explicit
fuel parameter (the input length is always sufficient fuel, which is proved
once and for all); all definitions are executable so that concrete inputs
can be checked with `decide`.
-/

set_option maxRecDepth 4000

/-! ### Population count: the mathematical specification

`popCountSpec n` is the number of 1 bits in the binary representation of
`n`, written with structural fuel recursion so that the kernel can
evaluate it. -/

def popCountAux : Nat → Nat → Nat
  | 0, _ => 0
  | f+1, n => if n = 0 then 0 else popCountAux f (n / 2) + n % 2

def popCountSpec (n : Nat) : Nat := popCountAux n n

theorem popCountAux_zero (f : Nat) : popCountAux f 0 = 0 := by
  cases f <;> simp [popCountAux]

theorem popCountAux_congr : ∀ f g n : Nat, n ≤ f → n ≤ g →
    popCountAux f n = popCountAux g n := by
  intro f
  induction f with
  | zero =>
    intro g n hf _
    have : n = 0 := Nat.le_zero.mp hf
    subst this
    rw [popCountAux_zero, popCountAux_zero]
  | succ f ih =>
    intro g n hf hg
    by_cases hn : n = 0
    · subst hn; rw [popCountAux_zero, popCountAux_zero]
    · obtain ⟨g', rfl⟩ : ∃ g', g = g' + 1 := by
        cases g with
        | zero => omega
        | succ g' => exact ⟨g', rfl⟩
      simp only [popCountAux, hn, if_false]
      have hd : n / 2 < n := Nat.div_lt_self (Nat.pos_of_ne_zero hn) (by omega)
      rw [ih g' (n / 2) (by omega) (by omega)]

/-- Defining recursion of `popCountSpec`, valid for every `n` (including 0). -/
theorem popCountSpec_rec (n : Nat) : popCountSpec n = popCountSpec (n / 2) + n % 2 := by
  by_cases hn : n = 0
  · subst hn; simp [popCountSpec, popCountAux_zero]
  · obtain ⟨m, rfl⟩ : ∃ m, n = m + 1 := by
      cases n with
      | zero => omega
      | succ m => exact ⟨m, rfl⟩
    show popCountAux (m+1) (m+1) = _
    simp only [popCountAux, hn, if_false]
    have : (m+1) / 2 < m + 1 := Nat.div_lt_self (by omega) (by omega)
    rw [popCountAux_congr m ((m+1)/2) ((m+1)/2) (by omega) (by omega)]
    rfl

theorem popCountSpec_zero : popCountSpec 0 = 0 := rfl

theorem popCountSpec_two_mul_add (m r : Nat) (h : r < 2) :
    popCountSpec (2 * m + r) = popCountSpec m + r := by
  rw [popCountSpec_rec (2 * m + r)]
  have h1 : (2 * m + r) / 2 = m := by omega
  have h2 : (2 * m + r) % 2 = r := by omega
  rw [h1, h2]

/-- Splitting a number at a power-of-two boundary splits its popcount. -/
theorem popCountSpec_split : ∀ (k a b : Nat), b < 2 ^ k →
    popCountSpec (2 ^ k * a + b) = popCountSpec a + popCountSpec b := by
  intro k
  induction k with
  | zero =>
    intro a b hb
    interval_cases b
    simp [popCountSpec_zero]
  | succ k ih =>
    intro a b hb
    have hsplit : 2 ^ (k+1) * a + b = 2 * (2 ^ k * a + b / 2) + b % 2 := by
      have : b = 2 * (b / 2) + b % 2 := (Nat.div_add_mod b 2).symm
      ring_nf
      omega
    rw [hsplit, popCountSpec_two_mul_add _ _ (Nat.mod_lt _ (by omega)),
        ih a (b / 2) (by omega)]
    have : popCountSpec b = popCountSpec (b / 2) + b % 2 := popCountSpec_rec b
    omega

theorem popCountSpec_le_of_lt_two_pow : ∀ (k n : Nat), n < 2 ^ k → popCountSpec n ≤ k := by
  intro k
  induction k with
  | zero =>
    intro n hn
    interval_cases n
    simp [popCountSpec_zero]
  | succ k ih =>
    intro n hn
    rw [popCountSpec_rec n]
    have := ih (n / 2) (by omega)
    omega

theorem popCountSpec_pos (n : Nat) (hn : n ≠ 0) : 0 < popCountSpec n := by
  induction n using Nat.strong_induction_on with
  | _ n ih =>
    rw [popCountSpec_rec n]
    rcases Nat.mod_two_eq_zero_or_one n with h | h
    · have hd : n / 2 ≠ 0 := by omega
      have := ih (n / 2) (by omega) hd
      omega
    · omega

theorem popCountSpec_eq_zero_iff (n : Nat) : popCountSpec n = 0 ↔ n = 0 := by
  constructor
  · intro h
    by_contra hn
    have := popCountSpec_pos n hn
    omega
  · rintro rfl; rfl

/-- Subadditivity of popcount over XOR; this is the heart of the triangle
inequality for the Hamming metric. -/
theorem popCountSpec_xor_le : ∀ (f a b : Nat), a + b ≤ f →
    popCountSpec (a ^^^ b) ≤ popCountSpec a + popCountSpec b := by
  intro f
  induction f with
  | zero =>
    intro a b h
    have ha : a = 0 := by omega
    have hb : b = 0 := by omega
    subst ha; subst hb
    simp [popCountSpec_zero]
  | succ f ih =>
    intro a b h
    by_cases h0 : a = 0 ∧ b = 0
    · obtain ⟨rfl, rfl⟩ := h0
      simp [popCountSpec_zero]
    · have hx : popCountSpec (a ^^^ b)
          = popCountSpec ((a ^^^ b) / 2) + (a ^^^ b) % 2 := popCountSpec_rec _
      rw [hx, Nat.xor_div_two]
      have hih : popCountSpec (a / 2 ^^^ b / 2)
          ≤ popCountSpec (a / 2) + popCountSpec (b / 2) := by
        apply ih
        omega
      have ha : popCountSpec a = popCountSpec (a / 2) + a % 2 := popCountSpec_rec a
      have hb : popCountSpec b = popCountSpec (b / 2) + b % 2 := popCountSpec_rec b
      have hm : (a ^^^ b) % 2 = (a + b) % 2 := Nat.xor_mod_two_eq
      omega

/-- Popcount counts the set bit positions. -/
theorem popCountSpec_eq_countP : ∀ (w n : Nat), n < 2 ^ w →
    popCountSpec n = (List.range w).countP (fun i => n.testBit i) := by
  intro w
  induction w with
  | zero =>
    intro n hn
    interval_cases n
    simp [popCountSpec_zero]
  | succ w ih =>
    intro n hn
    have hcomp : ((fun i => n.testBit i) ∘ Nat.succ) = (fun i => (n / 2).testBit i) := by
      funext i
      simp [Function.comp, Nat.testBit_succ]
    rw [List.range_succ_eq_map, List.countP_cons, List.countP_map, hcomp,
        ← ih (n / 2) (by omega), popCountSpec_rec n]
    rcases Nat.mod_two_eq_zero_or_one n with h | h <;>
      simp [Nat.testBit_zero, h]

/-! ### The SWAR popcount from `tree.c` (`distance`, lines 113–123)

The C code computes the Hamming distance of two `uint32_t` keys by a
branch-free parallel bit count.  All intermediate values stay below
`2^32`, so plain `Nat` arithmetic is a faithful model of the `uint32_t`
arithmetic (no wraparound occurs). -/

def popcnt32 (d0 : Nat) : Nat :=
  let d1 := (d0 &&& 0x55555555) + ((d0 >>> 1) &&& 0x55555555)
  let d2 := (d1 &&& 0x33333333) + ((d1 >>> 2) &&& 0x33333333)
  let d3 := (d2 + (d2 >>> 4)) &&& 0x0f0f0f0f
  let d4 := d3 + (d3 >>> 8)
  let d5 := d4 + (d4 >>> 16)
  d5 &&& 63

/-- `distance(x, y)` from `tree.c`: SWAR popcount of `x XOR y`. -/
def distance (x y : Nat) : Nat := popcnt32 (x ^^^ y)

/-! Generic machinery for splitting the SWAR stages at a power-of-two
boundary.  `stp s M x` is the repeated masked-add stage shape
`(x AND M) + ((x >>> s) AND M)`. -/

def stp (s M x : Nat) : Nat := (x &&& M) + ((x >>> s) &&& M)

theorem stp_le (s M x : Nat) : stp s M x ≤ 2 * M := by
  have h1 : x &&& M ≤ M := Nat.and_le_right
  have h2 : (x >>> s) &&& M ≤ M := Nat.and_le_right
  unfold stp
  omega

/-- Bitwise AND splits across a `2^k` boundary. -/
theorem and_split (k Mh Ml a b : Nat) (hMl : Ml < 2 ^ k) (hb : b < 2 ^ k) :
    (2 ^ k * a + b) &&& (2 ^ k * Mh + Ml) = 2 ^ k * (a &&& Mh) + (b &&& Ml) := by
  apply Nat.eq_of_testBit_eq
  intro j
  have hbl : b &&& Ml < 2 ^ k := Nat.lt_of_le_of_lt Nat.and_le_left hb
  rw [Nat.testBit_and, Nat.testBit_mul_pow_two_add _ hb, Nat.testBit_mul_pow_two_add _ hMl,
      Nat.testBit_mul_pow_two_add _ hbl]
  by_cases hj : j < k
  · simp [hj, Nat.testBit_and]
  · simp [hj, Nat.testBit_and]

/-- Right shift splits across a `2^k` boundary, with the bits of the high
part that cross the boundary made explicit. -/
theorem shiftRight_split (k s a b : Nat) (hb : b < 2 ^ k) (hs : s ≤ k) :
    (2 ^ k * a + b) >>> s
      = 2 ^ k * (a >>> s) + (2 ^ (k - s) * (a % 2 ^ s) + (b >>> s)) := by
  rw [Nat.shiftRight_eq_div_pow, Nat.shiftRight_eq_div_pow, Nat.shiftRight_eq_div_pow]
  have hk : 2 ^ k = 2 ^ s * 2 ^ (k - s) := by
    rw [← Nat.pow_add]
    congr 1
    omega
  have ha : a = 2 ^ s * (a / 2 ^ s) + a % 2 ^ s := (Nat.div_add_mod a (2 ^ s)).symm
  calc (2 ^ k * a + b) / 2 ^ s
      = (2 ^ s * (2 ^ (k - s) * a) + b) / 2 ^ s := by
        rw [hk]; ring_nf
    _ = 2 ^ (k - s) * a + b / 2 ^ s := by
        rw [Nat.mul_add_div (Nat.two_pow_pos s)]
    _ = 2 ^ k * (a / 2 ^ s) + (2 ^ (k - s) * (a % 2 ^ s) + b / 2 ^ s) := by
        conv_lhs => rw [ha]
        rw [hk]; ring_nf

/-- The crossing bits sit above the mask, so masking removes them. -/
theorem and_absorb_high (j M a c : Nat) (hM : M < 2 ^ j) :
    (a + 2 ^ j * c) &&& M = a &&& M := by
  apply Nat.eq_of_testBit_eq
  intro i
  by_cases hi : i < j
  · rw [Nat.testBit_and, Nat.testBit_and]
    have key : (a + 2 ^ j * c).testBit i = a.testBit i := by
      have h1 : (a + 2 ^ j * c) % 2 ^ j = a % 2 ^ j :=
        Nat.add_mul_mod_self_left a (2 ^ j) c
      have h2 : (a + 2 ^ j * c).testBit i = ((a + 2 ^ j * c) % 2 ^ j).testBit i := by
        rw [Nat.testBit_mod_two_pow]
        simp [hi]
      rw [h2, h1, Nat.testBit_mod_two_pow]
      simp [hi]
    rw [key]
  · have hMi : M.testBit i = false := Nat.testBit_lt_two_pow (by
      calc M < 2 ^ j := hM
        _ ≤ 2 ^ i := Nat.pow_le_pow_right (by omega) (by omega))
    rw [Nat.testBit_and, Nat.testBit_and, hMi, Bool.and_false, Bool.and_false]

/-- A masked-add SWAR stage splits across a `2^k` boundary when the mask's
repeating pattern has its top `s` bits clear. -/
theorem stp_split (k s M a b : Nat) (hM : M < 2 ^ (k - s)) (hs : s ≤ k)
    (hb : b < 2 ^ k) :
    stp s (2 ^ k * M + M) (2 ^ k * a + b) = 2 ^ k * stp s M a + stp s M b := by
  have hMk : M < 2 ^ k := Nat.lt_of_lt_of_le hM (Nat.pow_le_pow_right (by omega) (by omega))
  have hlo : 2 ^ (k - s) * (a % 2 ^ s) + (b >>> s) < 2 ^ k := by
    have h1 : a % 2 ^ s ≤ 2 ^ s - 1 := by
      have := Nat.mod_lt a (Nat.two_pow_pos s)
      omega
    have h2 : b >>> s < 2 ^ (k - s) := by
      rw [Nat.shiftRight_eq_div_pow]
      apply Nat.div_lt_of_lt_mul
      calc b < 2 ^ k := hb
        _ = 2 ^ (k - s) * 2 ^ s := by rw [← Nat.pow_add]; congr 1; omega
        _ = 2 ^ s * 2 ^ (k - s) := by ring
    have h3 : 2 ^ (k - s) * (a % 2 ^ s) ≤ 2 ^ (k - s) * (2 ^ s - 1) :=
      Nat.mul_le_mul_left _ h1
    have h4 : 2 ^ (k - s) * (2 ^ s - 1) + 2 ^ (k - s) = 2 ^ k := by
      have h5 : 2 ^ (k - s) * 2 ^ s = 2 ^ k := by
        rw [← Nat.pow_add]; congr 1; omega
      have h6 : 1 ≤ 2 ^ s := Nat.one_le_two_pow
      calc 2 ^ (k - s) * (2 ^ s - 1) + 2 ^ (k - s)
          = 2 ^ (k - s) * (2 ^ s - 1 + 1) := by ring
        _ = 2 ^ (k - s) * 2 ^ s := by rw [Nat.sub_add_cancel h6]
        _ = 2 ^ k := h5
    omega
  unfold stp
  rw [and_split k M M a b hMk hb, shiftRight_split k s a b hb hs,
      and_split k M M (a >>> s) _ hMk hlo]
  have habs : (2 ^ (k - s) * (a % 2 ^ s) + (b >>> s)) &&& M = (b >>> s) &&& M := by
    rw [Nat.add_comm]
    exact and_absorb_high (k - s) M (b >>> s) (a % 2 ^ s) hM
  rw [habs]
  ring

/-- The add-shift-mask stage (`(x + (x >>> 4)) AND M`) splits across a
`2^k` boundary provided the low half does not carry across. -/
theorem stage3_split (k M a b : Nat) (hM : M < 2 ^ (k - 4)) (hk : 4 ≤ k)
    (hb : b < 2 ^ k)
    (hcarry : b + (2 ^ (k - 4) * (a % 2 ^ 4) + (b >>> 4)) < 2 ^ k) :
    ((2 ^ k * a + b) + ((2 ^ k * a + b) >>> 4)) &&& (2 ^ k * M + M)
      = 2 ^ k * ((a + (a >>> 4)) &&& M) + ((b + (b >>> 4)) &&& M) := by
  have hMk : M < 2 ^ k := Nat.lt_of_lt_of_le hM (Nat.pow_le_pow_right (by omega) (by omega))
  rw [shiftRight_split k 4 a b hb hk]
  have hre : (2 ^ k * a + b) + (2 ^ k * (a >>> 4) + (2 ^ (k - 4) * (a % 2 ^ 4) + (b >>> 4)))
      = 2 ^ k * (a + (a >>> 4)) + (b + (2 ^ (k - 4) * (a % 2 ^ 4) + (b >>> 4))) := by
    ring
  rw [hre, and_split k M M _ _ hMk hcarry]
  have habs : (b + (2 ^ (k - 4) * (a % 2 ^ 4) + (b >>> 4))) &&& M
      = (b + (b >>> 4)) &&& M := by
    have : b + (2 ^ (k - 4) * (a % 2 ^ 4) + (b >>> 4))
        = (b + (b >>> 4)) + 2 ^ (k - 4) * (a % 2 ^ 4) := by ring
    rw [this]
    exact and_absorb_high (k - 4) M _ _ hM
  rw [habs]

/-! ### The SWAR stages at width 8, 16 and 32 -/

def t8 (x : Nat) : Nat := stp 2 0x33 (stp 1 0x55 x)

def u8 (x : Nat) : Nat := (t8 x + (t8 x >>> 4)) &&& 0x0f

theorem byte_facts : ∀ b, b < 256 →
    u8 b = popCountSpec b ∧ t8 b ≤ 0x44 ∧ t8 b % 16 ≤ 6 := by decide

def t16 (x : Nat) : Nat := stp 2 0x3333 (stp 1 0x5555 x)

def u16 (x : Nat) : Nat := (t16 x + (t16 x >>> 4)) &&& 0x0f0f

theorem t16_split (hi lo : Nat) (hlo : lo < 2 ^ 8) :
    t16 (2 ^ 8 * hi + lo) = 2 ^ 8 * t8 hi + t8 lo := by
  unfold t16 t8
  have hm1 : (0x5555 : Nat) = 2 ^ 8 * 0x55 + 0x55 := by norm_num
  have hm2 : (0x3333 : Nat) = 2 ^ 8 * 0x33 + 0x33 := by norm_num
  rw [hm1, hm2, stp_split 8 1 0x55 hi lo (by norm_num) (by norm_num) hlo,
      stp_split 8 2 0x33 _ _ (by norm_num) (by norm_num)
        (Nat.lt_of_le_of_lt (stp_le 1 0x55 lo) (by norm_num))]

theorem t16_bounds (x : Nat) (hx : x < 2 ^ 16) :
    t16 x ≤ 0x4444 ∧ t16 x % 16 ≤ 6 := by
  have hdm : x = 2 ^ 8 * (x / 2 ^ 8) + x % 2 ^ 8 := (Nat.div_add_mod x (2 ^ 8)).symm
  have hhi : x / 2 ^ 8 < 2 ^ 8 := by omega
  have hlo : x % 2 ^ 8 < 2 ^ 8 := Nat.mod_lt _ (by norm_num)
  obtain ⟨_, hb1, hb2⟩ := byte_facts (x / 2 ^ 8) hhi
  obtain ⟨_, hb3, hb4⟩ := byte_facts (x % 2 ^ 8) hlo
  rw [hdm, t16_split _ _ hlo]
  omega

theorem u16_split (hi lo : Nat) (hhi : hi < 2 ^ 8) (hlo : lo < 2 ^ 8) :
    u16 (2 ^ 8 * hi + lo) = 2 ^ 8 * u8 hi + u8 lo := by
  unfold u16 u8
  have hm : (0x0f0f : Nat) = 2 ^ 8 * 0x0f + 0x0f := by norm_num
  obtain ⟨_, hb1, hb2⟩ := byte_facts hi hhi
  obtain ⟨_, hb3, hb4⟩ := byte_facts lo hlo
  rw [t16_split hi lo hlo, hm]
  apply stage3_split 8 0x0f (t8 hi) (t8 lo) (by norm_num) (by norm_num)
    (by omega)
  rw [Nat.shiftRight_eq_div_pow]
  norm_num
  omega

theorem u16_pc (x : Nat) (hx : x < 2 ^ 16) :
    u16 x = 2 ^ 8 * popCountSpec (x / 2 ^ 8) + popCountSpec (x % 2 ^ 8) := by
  have hdm : x = 2 ^ 8 * (x / 2 ^ 8) + x % 2 ^ 8 := (Nat.div_add_mod x (2 ^ 8)).symm
  have hhi : x / 2 ^ 8 < 2 ^ 8 := by omega
  have hlo : x % 2 ^ 8 < 2 ^ 8 := Nat.mod_lt _ (by norm_num)
  obtain ⟨hb1, _, _⟩ := byte_facts (x / 2 ^ 8) hhi
  obtain ⟨hb2, _, _⟩ := byte_facts (x % 2 ^ 8) hlo
  conv_lhs => rw [hdm]
  rw [u16_split _ _ hhi hlo, hb1, hb2]

def t32 (x : Nat) : Nat := stp 2 0x33333333 (stp 1 0x55555555 x)

def u32 (x : Nat) : Nat := (t32 x + (t32 x >>> 4)) &&& 0x0f0f0f0f

theorem t32_split (hi lo : Nat) (hlo : lo < 2 ^ 16) :
    t32 (2 ^ 16 * hi + lo) = 2 ^ 16 * t16 hi + t16 lo := by
  unfold t32 t16
  have hm1 : (0x55555555 : Nat) = 2 ^ 16 * 0x5555 + 0x5555 := by norm_num
  have hm2 : (0x33333333 : Nat) = 2 ^ 16 * 0x3333 + 0x3333 := by norm_num
  rw [hm1, hm2, stp_split 16 1 0x5555 hi lo (by norm_num) (by norm_num) hlo,
      stp_split 16 2 0x3333 _ _ (by norm_num) (by norm_num)
        (Nat.lt_of_le_of_lt (stp_le 1 0x5555 lo) (by norm_num))]

theorem u32_split (hi lo : Nat) (hhi : hi < 2 ^ 16) (hlo : lo < 2 ^ 16) :
    u32 (2 ^ 16 * hi + lo) = 2 ^ 16 * u16 hi + u16 lo := by
  unfold u32 u16
  have hm : (0x0f0f0f0f : Nat) = 2 ^ 16 * 0x0f0f + 0x0f0f := by norm_num
  obtain ⟨hb1, hb2⟩ := t16_bounds hi hhi
  obtain ⟨hb3, hb4⟩ := t16_bounds lo hlo
  rw [t32_split hi lo hlo, hm]
  apply stage3_split 16 0x0f0f (t16 hi) (t16 lo) (by norm_num) (by norm_num)
    (by omega)
  rw [Nat.shiftRight_eq_div_pow]
  norm_num
  omega

/-- Final arithmetic of the SWAR popcount: the byte-sum stages and the
`AND 63` collapse four byte counts into their sum. -/
theorem swarFinal (p3 p2 p1 p0 : Nat)
    (h3 : p3 ≤ 8) (h2 : p2 ≤ 8) (h1 : p1 ≤ 8) (h0 : p0 ≤ 8) :
    ((16777216 * p3 + 65536 * p2 + 256 * p1 + p0)
        + ((16777216 * p3 + 65536 * p2 + 256 * p1 + p0) >>> 8)
      + (((16777216 * p3 + 65536 * p2 + 256 * p1 + p0)
        + ((16777216 * p3 + 65536 * p2 + 256 * p1 + p0) >>> 8)) >>> 16)) &&& 63
      = p3 + p2 + p1 + p0 := by
  have h63 : (63 : Nat) = 2 ^ 6 - 1 := by norm_num
  rw [Nat.shiftRight_eq_div_pow, Nat.shiftRight_eq_div_pow, h63,
      Nat.and_pow_two_sub_one_eq_mod]
  have e8 : (2 : Nat) ^ 8 = 256 := by norm_num
  have e16 : (2 : Nat) ^ 16 = 65536 := by norm_num
  have e6 : (2 : Nat) ^ 6 = 64 := by norm_num
  rw [e8, e16, e6]
  have he : (16777216 * p3 + 65536 * p2 + 256 * p1 + p0) / 256
      = 65536 * p3 + 256 * p2 + p1 := by omega
  rw [he]
  have hf : (16777216 * p3 + 65536 * p2 + 256 * p1 + p0
      + (65536 * p3 + 256 * p2 + p1)) / 65536 = 256 * p3 + p2 + p3 := by omega
  rw [hf]
  omega

/-- Correctness of the SWAR popcount on `uint32_t` values. -/
theorem popcnt32_correct (x : Nat) (hx : x < 2 ^ 32) :
    popcnt32 x = popCountSpec x := by
  have hdm : x = 2 ^ 16 * (x / 2 ^ 16) + x % 2 ^ 16 := (Nat.div_add_mod x (2 ^ 16)).symm
  have hhi : x / 2 ^ 16 < 2 ^ 16 := by omega
  have hlo : x % 2 ^ 16 < 2 ^ 16 := Nat.mod_lt _ (by norm_num)
  have hu32 : u32 x = 2 ^ 16 * u16 (x / 2 ^ 16) + u16 (x % 2 ^ 16) := by
    conv_lhs => rw [hdm]
    exact u32_split _ _ hhi hlo
  have hH1 : x / 2 ^ 16 / 2 ^ 8 < 2 ^ 8 := by omega
  have hH0 : x / 2 ^ 16 % 2 ^ 8 < 2 ^ 8 := Nat.mod_lt _ (by norm_num)
  have hL1 : x % 2 ^ 16 / 2 ^ 8 < 2 ^ 8 := by omega
  have hL0 : x % 2 ^ 16 % 2 ^ 8 < 2 ^ 8 := Nat.mod_lt _ (by norm_num)
  have hbp3 : popCountSpec (x / 2 ^ 16 / 2 ^ 8) ≤ 8 := popCountSpec_le_of_lt_two_pow 8 _ hH1
  have hbp2 : popCountSpec (x / 2 ^ 16 % 2 ^ 8) ≤ 8 := popCountSpec_le_of_lt_two_pow 8 _ hH0
  have hbp1 : popCountSpec (x % 2 ^ 16 / 2 ^ 8) ≤ 8 := popCountSpec_le_of_lt_two_pow 8 _ hL1
  have hbp0 : popCountSpec (x % 2 ^ 16 % 2 ^ 8) ≤ 8 := popCountSpec_le_of_lt_two_pow 8 _ hL0
  have hA : u32 x = 16777216 * popCountSpec (x / 2 ^ 16 / 2 ^ 8)
      + 65536 * popCountSpec (x / 2 ^ 16 % 2 ^ 8)
      + 256 * popCountSpec (x % 2 ^ 16 / 2 ^ 8)
      + popCountSpec (x % 2 ^ 16 % 2 ^ 8) := by
    rw [hu32, u16_pc (x / 2 ^ 16) (by omega), u16_pc (x % 2 ^ 16) (by omega)]
    ring
  have hpcx : popCountSpec x = popCountSpec (x / 2 ^ 16 / 2 ^ 8)
      + popCountSpec (x / 2 ^ 16 % 2 ^ 8)
      + popCountSpec (x % 2 ^ 16 / 2 ^ 8)
      + popCountSpec (x % 2 ^ 16 % 2 ^ 8) := by
    conv_lhs => rw [hdm]
    rw [popCountSpec_split 16 _ _ hlo]
    have h1 : popCountSpec (x / 2 ^ 16)
        = popCountSpec (x / 2 ^ 16 / 2 ^ 8) + popCountSpec (x / 2 ^ 16 % 2 ^ 8) := by
      conv_lhs => rw [(Nat.div_add_mod (x / 2 ^ 16) (2 ^ 8)).symm]
      rw [popCountSpec_split 8 _ _ hH0]
    have h2 : popCountSpec (x % 2 ^ 16)
        = popCountSpec (x % 2 ^ 16 / 2 ^ 8) + popCountSpec (x % 2 ^ 16 % 2 ^ 8) := by
      conv_lhs => rw [(Nat.div_add_mod (x % 2 ^ 16) (2 ^ 8)).symm]
      rw [popCountSpec_split 8 _ _ hL0]
    omega
  have hform : popcnt32 x
      = ((u32 x + (u32 x >>> 8)) + ((u32 x + (u32 x >>> 8)) >>> 16)) &&& 63 := rfl
  rw [hform, hA, hpcx]
  exact swarFinal _ _ _ _ hbp3 hbp2 hbp1 hbp0

/-! ### Metric properties of `distance` -/

theorem distance_eq_popCountSpec (x y : Nat) (hx : x < 2 ^ 32) (hy : y < 2 ^ 32) :
    distance x y = popCountSpec (x ^^^ y) :=
  popcnt32_correct (x ^^^ y) (Nat.xor_lt_two_pow hx hy)

theorem distance_comm (x y : Nat) : distance x y = distance y x := by
  unfold distance
  rw [Nat.xor_comm]

theorem distance_self (x : Nat) : distance x x = 0 := by
  unfold distance
  rw [Nat.xor_self]
  rfl

theorem distance_le_32 (x y : Nat) (hx : x < 2 ^ 32) (hy : y < 2 ^ 32) :
    distance x y ≤ 32 := by
  rw [distance_eq_popCountSpec x y hx hy]
  exact popCountSpec_le_of_lt_two_pow 32 _ (Nat.xor_lt_two_pow hx hy)

theorem distance_eq_zero_iff (x y : Nat) (hx : x < 2 ^ 32) (hy : y < 2 ^ 32) :
    distance x y = 0 ↔ x = y := by
  rw [distance_eq_popCountSpec x y hx hy, popCountSpec_eq_zero_iff, Nat.xor_eq_zero]

theorem distance_pos_of_ne (x y : Nat) (hx : x < 2 ^ 32) (hy : y < 2 ^ 32)
    (hne : x ≠ y) : 1 ≤ distance x y := by
  have h := (distance_eq_zero_iff x y hx hy).not
  omega

theorem distance_triangle (x y z : Nat)
    (hx : x < 2 ^ 32) (hy : y < 2 ^ 32) (hz : z < 2 ^ 32) :
    distance x z ≤ distance x y + distance y z := by
  rw [distance_eq_popCountSpec x z hx hz, distance_eq_popCountSpec x y hx hy,
      distance_eq_popCountSpec y z hy hz]
  have hxz : x ^^^ z = (x ^^^ y) ^^^ (y ^^^ z) := by
    rw [Nat.xor_assoc, Nat.xor_cancel_left]
  rw [hxz]
  exact popCountSpec_xor_le ((x ^^^ y) + (y ^^^ z)) _ _ (Nat.le_refl _)

/-! ### Data model: BK-trees and VP-trees

`bktree` mirrors `struct bktree`: a node is either a linear leaf holding a
list of keys, or an internal node with a center key and a sibling chain of
children; `bkch` mirrors the sibling chain, each entry carrying the child's
bucket `distance` field.  `vptree` mirrors `struct vptree` with nullable
`near`/`far` pointers modelled by `vpchild`. -/

mutual
inductive bktree : Type where
  | leaf : List Nat → bktree
  | node : Nat → bkch → bktree
inductive bkch : Type where
  | nil : bkch
  | cons : Nat → bktree → bkch → bkch
end

mutual
inductive vptree : Type where
  | leaf : List Nat → vptree
  | node : Nat → Nat → vpchild → vpchild → vptree
inductive vpchild : Type where
  | none : vpchild
  | some : vptree → vpchild
end

/-! ### Shared histogram loops of `mktree_bk` and `mktree_vp` -/

/-- The per-distance histogram loop (`dcnt[distance(rootkey, keys[i])]++`),
with the `dcnt` array modelled as a function. -/
def histLoop (rootkey : Nat) : List Nat → (Nat → Nat) → (Nat → Nat)
  | [], h => h
  | x :: xs, h =>
    histLoop rootkey xs (fun j => if j = distance rootkey x then h j + 1 else h j)

/-- The prefix-sum loop (`dcnt[i] = (a += dcnt[i])`): `accLoop h i` is the
value stored in `dcnt[i]` after the pass. -/
def accLoop (h : Nat → Nat) : Nat → Nat
  | 0 => h 0
  | i+1 => accLoop h i + h (i+1)

/-- The cumulative histogram `dcnt` after both loops. -/
def cumDist (rootkey : Nat) (ks : List Nat) : Nat → Nat :=
  accLoop (histLoop rootkey ks (fun _ => 0))

/-! ### The counting sort of `mktree_bk` (lines 263–274) -/

/-- The placement loop of the counting sort
(`tmp[--pos[distance(rootkey, keys[i])]] = keys[i]`), with `pos` and `tmp`
modelled as functions from index to value. -/
def placeLoop (rootkey : Nat) :
    List Nat → (Nat → Nat) → (Nat → Nat) → ((Nat → Nat) × (Nat → Nat))
  | [], pos, tmp => (pos, tmp)
  | x :: xs, pos, tmp =>
    let d := distance rootkey x
    let p := pos d - 1
    placeLoop rootkey xs (fun j => if j = d then p else pos j)
      (fun j => if j = p then x else tmp j)

/-- The fully sorted scratch array `tmp` of `mktree_bk`, read back as a
list of length `ks.length` (`pos` is initialised to a copy of `dcnt`). -/
def bkTmp (rootkey : Nat) (ks : List Nat) : List Nat :=
  List.map ((placeLoop rootkey ks (cumDist rootkey ks) (fun _ => 0)).2)
    (List.range ks.length)

/-! ### BK-tree construction (`mktree_bk`, lines 230–293)

The recursion is driven by an explicit fuel parameter; `keys.length` is
always enough fuel (each bucket is strictly shorter than the input), which
is proved below, and keeps every definition kernel-executable. -/

/-- The child-construction loop of `mktree_bk`: for each distance `i` in
`is`, the bucket occupies `tmp[dcnt[i-1] .. dcnt[i])`; empty buckets are
skipped (`if (!len) continue`), nonempty ones become children carrying
distance `i`, linked in increasing order of `i`. -/
def bkBuildCh (build : List Nat → bktree) (tmp : List Nat) (cum : Nat → Nat) :
    List Nat → bkch
  | [] => .nil
  | i :: is =>
    let off := cum (i - 1)
    let len := cum i - off
    if len = 0 then bkBuildCh build tmp cum is
    else .cons i (build ((tmp.drop off).take len)) (bkBuildCh build tmp cum is)

def mktree_bkF : Nat → List Nat → Nat → bktree
  | 0, keys, _ => .leaf keys
  | fuel+1, keys, max_linear =>
    if keys.length ≤ max_linear ∨ keys.length ≤ 1 then .leaf keys
    else match keys with
      | [] => .leaf []
      | rootkey :: rest =>
        .node rootkey (bkBuildCh (fun b => mktree_bkF fuel b max_linear)
          (bkTmp rootkey rest) (cumDist rootkey rest) (List.range' 1 32))

def mktree_bk (keys : List Nat) (max_linear : Nat) : bktree :=
  mktree_bkF keys.length keys max_linear

/-! ### BK-tree range query (`query_bk`, lines 296–323) -/

mutual
def query_bk : bktree → Nat → Nat → List Nat
  | .leaf ks, ref, maxd => ks.filter (fun k => distance ref k ≤ maxd)
  | .node key ch, ref, maxd =>
    let d := distance key ref
    (if d ≤ maxd then [key] else []) ++ bkScan ref maxd d true ch
/-- The two scanning loops of `query_bk` fused into one pass over the
sibling chain: while `skipping` is true we are in the first loop
(`p->distance + maxd < d` skips the child); from the first non-skipped
child on we are in the second loop, which visits children while
`p->distance <= maxd + d` and stops at the first failure. -/
def bkScan (ref maxd d : Nat) : Bool → bkch → List Nat
  | _, .nil => []
  | skipping, .cons c t rest =>
    if skipping ∧ c + maxd < d then bkScan ref maxd d true rest
    else if c ≤ maxd + d then query_bk t ref maxd ++ bkScan ref maxd d false rest
    else []
end

/-! ### VP-tree construction (`mktree_vp`, lines 344–420) -/

/-- The threshold-selection loop
(`for (k = 1; k <= 32; ++k) if (dcnt[k] > median) break;`), with the
remaining iteration count made explicit; the loop exits with `k = 33`
when no `k` in `[1, 32]` satisfies the condition. -/
def vpKAux (cum : Nat → Nat) (median : Nat) : Nat → Nat → Nat
  | 0, k => k
  | left+1, k => if median < cum k then k else vpKAux cum median left (k+1)

def vpK (cum : Nat → Nat) (median : Nat) : Nat := vpKAux cum median 32 1

/-- The tie-break after the loop
(`if (k != 1 && median - dcnt[k-1] <= dcnt[k] - median) k--`). -/
def vpAdjust (cum : Nat → Nat) (median k : Nat) : Nat :=
  if k ≠ 1 ∧ median - cum (k - 1) ≤ cum k - median then k - 1 else k

/-- `median = dcnt[0] + (n - dcnt[0]) / 2` (line 387). -/
def vpMedian (rootkey : Nat) (rest : List Nat) : Nat :=
  cumDist rootkey rest 0 + (rest.length - cumDist rootkey rest 0) / 2

/-- The near/far partition loop of `mktree_vp` (lines 401–408): keys equal
to the vantage are skipped, the others are appended to the near or far
segment in input order. -/
def vpSplitKeys (rootkey kthr : Nat) : List Nat → List Nat × List Nat
  | [] => ([], [])
  | x :: xs =>
    let pr := vpSplitKeys rootkey kthr xs
    if x = rootkey then pr
    else if distance rootkey x ≤ kthr then (x :: pr.1, pr.2) else (pr.1, x :: pr.2)

def mktree_vpF : Nat → List Nat → Nat → vptree
  | 0, keys, _ => .leaf keys
  | fuel+1, keys, max_linear =>
    if keys.length ≤ max_linear ∨ keys.length ≤ 1 then .leaf keys
    else match keys with
      | [] => .leaf []
      | rootkey :: rest =>
        let cum := cumDist rootkey rest
        let median := vpMedian rootkey rest
        let k := vpAdjust cum median (vpK cum median)
        let nnear := cum k - cum 0
        let nfar := rest.length - cum k
        let pr := vpSplitKeys rootkey k rest
        .node k rootkey
          (if 0 < nnear then .some (mktree_vpF fuel pr.1 max_linear) else .none)
          (if 0 < nfar then .some (mktree_vpF fuel pr.2 max_linear) else .none)

def mktree_vp (keys : List Nat) (max_linear : Nat) : vptree :=
  mktree_vpF keys.length keys max_linear

/-! ### VP-tree range query (`query_vp`, lines 422–452) -/

mutual
def query_vp : vptree → Nat → Nat → List Nat
  | .leaf ks, ref, maxd => ks.filter (fun k => distance ref k ≤ maxd)
  | .node thr v near far, ref, maxd =>
    let d := distance v ref
    (if d ≤ maxd + thr then
        queryChild_vp near ref maxd ++ (if d ≤ maxd then [v] else [])
      else [])
    ++ (if thr < d + maxd then queryChild_vp far ref maxd else [])
def queryChild_vp : vpchild → Nat → Nat → List Nat
  | .none, _, _ => []
  | .some t, ref, maxd => query_vp t ref maxd
end

/-! ### Linear baseline (`mktree_linear` / `query_linear`, lines 186–210) -/

def mktree_linear (keys : List Nat) : List Nat := keys

def query_linear (root : List Nat) (ref maxd : Nat) : List Nat :=
  root.filter (fun k => distance ref k ≤ maxd)

/-! ### Key collectors, leaf collectors, invariants -/

mutual
/-- All keys stored in a BK tree: leaf contents plus internal centers. -/
def bkKeys : bktree → List Nat
  | .leaf ks => ks
  | .node key ch => key :: bkchKeys ch
def bkchKeys : bkch → List Nat
  | .nil => []
  | .cons _ t rest => bkKeys t ++ bkchKeys rest
end

mutual
/-- The key lists of all leaves of a BK tree. -/
def bkLeaves : bktree → List (List Nat)
  | .leaf ks => [ks]
  | .node _ ch => bkchLeaves ch
def bkchLeaves : bkch → List (List Nat)
  | .nil => []
  | .cons _ t rest => bkLeaves t ++ bkchLeaves rest
end

mutual
/-- All keys stored in a VP tree: leaf contents plus internal vantages. -/
def vpKeys : vptree → List Nat
  | .leaf ks => ks
  | .node _ v near far => v :: (vpcKeys near ++ vpcKeys far)
def vpcKeys : vpchild → List Nat
  | .none => []
  | .some t => vpKeys t
end

mutual
/-- The key lists of all leaves of a VP tree. -/
def vpLeaves : vptree → List (List Nat)
  | .leaf ks => [ks]
  | .node _ _ near far => vpcLeaves near ++ vpcLeaves far
def vpcLeaves : vpchild → List (List Nat)
  | .none => []
  | .some t => vpLeaves t
end

def bkIsLeaf : bktree → Bool
  | .leaf _ => true
  | .node _ _ => false

def vpIsLeaf : vptree → Bool
  | .leaf _ => true
  | .node _ _ _ _ => false

mutual
/-- Structural invariant of built BK trees: every stored key is 32-bit;
every child in the sibling chain holds only keys at exactly its bucket
distance from the center, and bucket distances strictly increase along
the chain (`lb` is a strict lower bound for the remaining distances). -/
def bkInv : bktree → Prop
  | .leaf ks => ∀ x ∈ ks, x < 2 ^ 32
  | .node key ch => key < 2 ^ 32 ∧ bkchInv key 0 ch
def bkchInv (center lb : Nat) : bkch → Prop
  | .nil => True
  | .cons c t rest =>
    lb < c ∧ (∀ x ∈ bkKeys t, distance center x = c) ∧ bkInv t ∧ bkchInv center c rest
end

mutual
/-- Structural invariant of built VP trees: every stored key is 32-bit;
all keys of the near subtree lie in the closed ball of radius `thr`
around the vantage, all keys of the far subtree lie strictly outside. -/
def vpInv : vptree → Prop
  | .leaf ks => ∀ x ∈ ks, x < 2 ^ 32
  | .node thr v near far =>
    v < 2 ^ 32 ∧
    (∀ x ∈ vpcKeys near, distance v x ≤ thr) ∧
    (∀ x ∈ vpcKeys far, thr < distance v x) ∧
    vpcInv near ∧ vpcInv far
def vpcInv : vpchild → Prop
  | .none => True
  | .some t => vpInv t
end

/-! ### Characterization of the histogram loops -/

theorem histLoop_apply (rootkey : Nat) :
    ∀ (ks : List Nat) (h : Nat → Nat) (j : Nat),
      histLoop rootkey ks h j = h j + ks.countP (fun x => distance rootkey x = j) := by
  intro ks
  induction ks with
  | nil => intro h j; simp [histLoop]
  | cons x xs ih =>
    intro h j
    rw [histLoop, ih, List.countP_cons]
    by_cases hc : distance rootkey x = j
    · simp [hc]
      omega
    · have hc' : ¬(j = distance rootkey x) := fun h => hc h.symm
      simp [hc, hc']

theorem countP_dist_le_succ (rootkey i : Nat) (ks : List Nat) :
    ks.countP (fun x => distance rootkey x ≤ i + 1)
      = ks.countP (fun x => distance rootkey x ≤ i)
        + ks.countP (fun x => distance rootkey x = i + 1) := by
  induction ks with
  | nil => rfl
  | cons x xs ih =>
    rw [List.countP_cons, List.countP_cons, List.countP_cons, ih]
    by_cases h1 : distance rootkey x ≤ i + 1 <;>
      by_cases h2 : distance rootkey x ≤ i <;>
      by_cases h3 : distance rootkey x = i + 1 <;>
      simp [h1, h2, h3] <;> omega

/-- `dcnt[i]` after the two loops is the number of keys at distance at
most `i` from the root. -/
theorem cumDist_eq (rootkey : Nat) (ks : List Nat) :
    ∀ i : Nat, cumDist rootkey ks i = ks.countP (fun x => distance rootkey x ≤ i) := by
  intro i
  induction i with
  | zero =>
    show histLoop rootkey ks (fun _ => 0) 0 = _
    rw [histLoop_apply]
    have : ∀ x, (distance rootkey x = 0) = (distance rootkey x ≤ 0) := by
      intro x
      simp [Nat.le_zero]
    simp only [this]
    omega
  | succ i ih =>
    show accLoop _ i + histLoop rootkey ks (fun _ => 0) (i+1) = _
    rw [histLoop_apply, countP_dist_le_succ]
    have hacc : accLoop (histLoop rootkey ks (fun _ => 0)) i
        = ks.countP (fun x => distance rootkey x ≤ i) := ih
    omega

theorem cumDist_mono (rootkey : Nat) (ks : List Nat) {i j : Nat} (hij : i ≤ j) :
    cumDist rootkey ks i ≤ cumDist rootkey ks j := by
  rw [cumDist_eq, cumDist_eq]
  exact List.countP_mono_left (fun x _ hx => by
    simp only [decide_eq_true_eq] at hx ⊢
    omega)

theorem cumDist_le_length (rootkey : Nat) (ks : List Nat) (i : Nat) :
    cumDist rootkey ks i ≤ ks.length := by
  rw [cumDist_eq, List.countP_eq_length_filter]
  exact List.length_filter_le _ _

theorem cumDist_step (rootkey : Nat) (ks : List Nat) (d : Nat) (hd : 1 ≤ d) :
    cumDist rootkey ks d
      = cumDist rootkey ks (d - 1) + ks.countP (fun x => distance rootkey x = d) := by
  obtain ⟨e, rfl⟩ : ∃ e, d = e + 1 := ⟨d - 1, by omega⟩
  rw [cumDist_eq, cumDist_eq, countP_dist_le_succ]
  congr 1

theorem countP_dist_le_cumDist (rootkey : Nat) (ks : List Nat) (d : Nat) :
    ks.countP (fun x => distance rootkey x = d) ≤ cumDist rootkey ks d := by
  rw [cumDist_eq]
  exact List.countP_mono_left (fun x _ hx => by
    simp only [decide_eq_true_eq] at hx ⊢
    omega)

/-- With 32-bit keys every distance is at most 32, so `dcnt[32]` counts
all keys (this is the `assert(a == n)` of the C code). -/
theorem cumDist_32 (rootkey : Nat) (ks : List Nat) (hroot : rootkey < 2 ^ 32)
    (hb : ∀ x ∈ ks, x < 2 ^ 32) :
    cumDist rootkey ks 32 = ks.length := by
  rw [cumDist_eq]
  have : ∀ x ∈ ks, (fun x => decide (distance rootkey x ≤ 32)) x = true := by
    intro x hx
    simp only [decide_eq_true_eq]
    exact distance_le_32 _ _ hroot (hb x hx)
  calc ks.countP _ = ks.countP (fun _ => true) := List.countP_congr (by
        intro x hx
        simp [this x hx])
    _ = ks.length := by rw [List.countP_true]

/-! ### Characterization of the VP partition loop -/

theorem vpSplitKeys_eq (rootkey kthr : Nat) :
    ∀ ks : List Nat,
      vpSplitKeys rootkey kthr ks
        = (ks.filter (fun x => x ≠ rootkey ∧ distance rootkey x ≤ kthr),
           ks.filter (fun x => x ≠ rootkey ∧ kthr < distance rootkey x)) := by
  intro ks
  induction ks with
  | nil => rfl
  | cons x xs ih =>
    rw [vpSplitKeys, ih]
    by_cases h1 : x = rootkey
    · simp [h1, List.filter_cons]
    · by_cases h2 : distance rootkey x ≤ kthr
      · simp [List.filter_cons, h1, h2, Nat.not_lt.mpr h2]
      · simp [List.filter_cons, h1, h2, Nat.lt_of_not_le h2]

/-! ### Correctness of the counting sort (`mktree_bk`, lines 263–274)

The placement loop writes each key of bucket `d` at `--pos[d]`, scanning
the input left to right, so bucket `d` ends up occupying
`tmp[dcnt[d-1] .. dcnt[d])` with its keys in reverse input order. -/

/-- The keys at exactly distance `d` from the root, in input order. -/
def bucketOf (rootkey : Nat) (L : List Nat) (d : Nat) : List Nat :=
  L.filter (fun x => distance rootkey x = d)

theorem bucketOf_append (rootkey : Nat) (P S : List Nat) (d : Nat) :
    bucketOf rootkey (P ++ S) d = bucketOf rootkey P d ++ bucketOf rootkey S d :=
  List.filter_append _ _

theorem bucketOf_length_le_cumDist (rootkey : Nat) (L : List Nat) (d : Nat) :
    (bucketOf rootkey L d).length ≤ cumDist rootkey L d := by
  rw [bucketOf, ← List.countP_eq_length_filter]
  exact countP_dist_le_cumDist rootkey L d

theorem cumDist_step' (rootkey : Nat) (L : List Nat) (d : Nat) (hd : 1 ≤ d) :
    cumDist rootkey L d
      = cumDist rootkey L (d - 1) + (bucketOf rootkey L d).length := by
  rw [cumDist_step rootkey L d hd, bucketOf, ← List.countP_eq_length_filter]

theorem bucketOf_singleton (rootkey x j : Nat) :
    bucketOf rootkey [x] j = if distance rootkey x = j then [x] else [] := by
  by_cases h : distance rootkey x = j <;> simp [bucketOf, List.filter_cons, h]

theorem placeLoop_spec (rootkey : Nat) (L : List Nat) :
    ∀ (S P : List Nat) (tmp : Nat → Nat),
      P ++ S = L →
      (∀ d t, t < (bucketOf rootkey P d).length →
          tmp (cumDist rootkey L d - 1 - t) = (bucketOf rootkey P d).getD t 0) →
      ∀ d t, t < (bucketOf rootkey L d).length →
        (placeLoop rootkey S
            (fun j => cumDist rootkey L j - (bucketOf rootkey P j).length) tmp).2
            (cumDist rootkey L d - 1 - t)
          = (bucketOf rootkey L d).getD t 0 := by
  intro S
  induction S with
  | nil =>
    intro P tmp hPS htmp d t ht
    have hPL : P = L := by simpa using hPS
    subst hPL
    exact htmp d t ht
  | cons x xs ih =>
    intro P tmp hPS htmp d t ht
    have hbsum : ∀ j, (bucketOf rootkey P j).length + (bucketOf rootkey (x :: xs) j).length
        = (bucketOf rootkey L j).length := by
      intro j
      rw [← hPS, bucketOf_append, List.length_append]
    have hxbucket : bucketOf rootkey (x :: xs) (distance rootkey x)
        = x :: bucketOf rootkey xs (distance rootkey x) := by
      rw [bucketOf, List.filter_cons]
      simp [bucketOf]
    have hf1 : (bucketOf rootkey P (distance rootkey x)).length + 1
        ≤ (bucketOf rootkey L (distance rootkey x)).length := by
      have := hbsum (distance rootkey x)
      rw [hxbucket] at this
      simp only [List.length_cons] at this
      omega
    have hf2 : ∀ j, (bucketOf rootkey L j).length ≤ cumDist rootkey L j :=
      fun j => bucketOf_length_le_cumDist rootkey L j
    have step : (placeLoop rootkey (x :: xs)
          (fun j => cumDist rootkey L j - (bucketOf rootkey P j).length) tmp)
        = placeLoop rootkey xs
            (fun j => if j = distance rootkey x
              then cumDist rootkey L (distance rootkey x)
                    - (bucketOf rootkey P (distance rootkey x)).length - 1
              else cumDist rootkey L j - (bucketOf rootkey P j).length)
            (fun j => if j = cumDist rootkey L (distance rootkey x)
                    - (bucketOf rootkey P (distance rootkey x)).length - 1
              then x else tmp j) := rfl
    have hbP' : ∀ j, (bucketOf rootkey (P ++ [x]) j).length
        = (bucketOf rootkey P j).length
          + (if j = distance rootkey x then 1 else 0) := by
      intro j
      rw [bucketOf_append, List.length_append, bucketOf_singleton]
      by_cases hj : j = distance rootkey x
      · subst hj
        simp
      · have hj' : ¬(distance rootkey x = j) := fun h => hj h.symm
        simp [hj, hj']
    have hpos : (fun j => if j = distance rootkey x
          then cumDist rootkey L (distance rootkey x)
                - (bucketOf rootkey P (distance rootkey x)).length - 1
          else cumDist rootkey L j - (bucketOf rootkey P j).length)
        = (fun j => cumDist rootkey L j - (bucketOf rootkey (P ++ [x]) j).length) := by
      funext j
      rw [hbP' j]
      by_cases hj : j = distance rootkey x
      · subst hj
        rw [if_pos rfl, if_pos rfl]
        omega
      · rw [if_neg hj, if_neg hj]
        omega
    have htmp' : ∀ e s, s < (bucketOf rootkey (P ++ [x]) e).length →
        (fun j => if j = cumDist rootkey L (distance rootkey x)
              - (bucketOf rootkey P (distance rootkey x)).length - 1
            then x else tmp j) (cumDist rootkey L e - 1 - s)
          = (bucketOf rootkey (P ++ [x]) e).getD s 0 := by
      intro e s hes
      by_cases he : e = distance rootkey x
      · subst he
        rw [hbP' (distance rootkey x), if_pos rfl] at hes
        rcases Nat.lt_or_ge s (bucketOf rootkey P (distance rootkey x)).length with hlt | hge
        · -- an entry written earlier in this bucket; the new write sits below it
          have hne : cumDist rootkey L (distance rootkey x) - 1 - s
              ≠ cumDist rootkey L (distance rootkey x)
                - (bucketOf rootkey P (distance rootkey x)).length - 1 := by
            have h2 := hf2 (distance rootkey x)
            omega
          simp only [if_neg hne]
          rw [htmp (distance rootkey x) s hlt, bucketOf_append]
          rw [List.getD_eq_getElem?_getD, List.getD_eq_getElem?_getD,
              List.getElem?_append_left hlt]
        · -- the entry just written
          have hseq : s = (bucketOf rootkey P (distance rootkey x)).length := by omega
          subst hseq
          have hidx : cumDist rootkey L (distance rootkey x) - 1
                - (bucketOf rootkey P (distance rootkey x)).length
              = cumDist rootkey L (distance rootkey x)
                - (bucketOf rootkey P (distance rootkey x)).length - 1 := by
            omega
          rw [hidx]
          simp only [if_pos rfl]
          rw [bucketOf_append, List.getD_eq_getElem?_getD,
              List.getElem?_append_right (Nat.le_refl _)]
          have hxb : bucketOf rootkey [x] (distance rootkey x) = [x] := by
            rw [bucketOf_singleton]
            simp
          rw [hxb]
          simp
      · -- a different bucket: its region is disjoint from the written cell
        have hbPd : (bucketOf rootkey (P ++ [x]) e) = bucketOf rootkey P e := by
          rw [bucketOf_append]
          have hxb : bucketOf rootkey [x] e = [] := by
            rw [bucketOf_singleton]
            have he' : ¬(distance rootkey x = e) := fun h => he h.symm
            simp [he']
          rw [hxb, List.append_nil]
        rw [hbPd] at hes ⊢
        have hne : cumDist rootkey L e - 1 - s
            ≠ cumDist rootkey L (distance rootkey x)
              - (bucketOf rootkey P (distance rootkey x)).length - 1 := by
          have h2 := hf2 e
          have h3 := hf2 (distance rootkey x)
          have hblen : (bucketOf rootkey P e).length ≤ (bucketOf rootkey L e).length := by
            have := hbsum e
            omega
          rcases Nat.lt_or_gt_of_ne he with hlt | hgt
          · -- e < distance rootkey x
            have hdx1 : 1 ≤ distance rootkey x := by omega
            have hstep2 := cumDist_step' rootkey L (distance rootkey x) hdx1
            have hmono : cumDist rootkey L e
                ≤ cumDist rootkey L (distance rootkey x - 1) :=
              cumDist_mono rootkey L (by omega)
            omega
          · -- distance rootkey x < e
            have he1 : 1 ≤ e := by omega
            have hstep2 := cumDist_step' rootkey L e he1
            have hmono : cumDist rootkey L (distance rootkey x)
                ≤ cumDist rootkey L (e - 1) :=
              cumDist_mono rootkey L (by omega)
            omega
        simp only [if_neg hne]
        exact htmp e s hes
    rw [step, hpos]
    exact ih (P ++ [x])
      (fun j => if j = cumDist rootkey L (distance rootkey x)
            - (bucketOf rootkey P (distance rootkey x)).length - 1
        then x else tmp j)
      (by rw [List.append_assoc]; exact hPS) htmp' d t ht

theorem bkTmp_length (rootkey : Nat) (L : List Nat) :
    (bkTmp rootkey L).length = L.length := by
  simp [bkTmp]

theorem bkTmp_getElem (rootkey : Nat) (L : List Nat) (d t : Nat)
    (ht : t < (bucketOf rootkey L d).length)
    (hi : cumDist rootkey L d - 1 - t < (bkTmp rootkey L).length) :
    (bkTmp rootkey L)[cumDist rootkey L d - 1 - t]
      = (bucketOf rootkey L d).getD t 0 := by
  have hfn : (fun j => cumDist rootkey L j
        - (bucketOf rootkey ([] : List Nat) j).length) = cumDist rootkey L := by
    funext j
    simp [bucketOf]
  have hspec := placeLoop_spec rootkey L L [] (fun _ => 0) rfl
    (by
      intro d' t' ht0
      simp [bucketOf] at ht0) d t ht
  rw [hfn] at hspec
  show (List.map ((placeLoop rootkey L (cumDist rootkey L) (fun _ => 0)).2)
      (List.range L.length))[cumDist rootkey L d - 1 - t] = _
  rw [List.getElem_map, List.getElem_range]
  exact hspec

/-- Bucket `d` of the counting sort occupies `tmp[dcnt[d-1] .. dcnt[d])`
and holds exactly the keys at distance `d`, in reverse input order. -/
theorem bkTmp_segment (rootkey : Nat) (L : List Nat) (d : Nat) (hd : 1 ≤ d) :
    ((bkTmp rootkey L).drop (cumDist rootkey L (d - 1))).take
        (cumDist rootkey L d - cumDist rootkey L (d - 1))
      = (bucketOf rootkey L d).reverse := by
  have hstep := cumDist_step' rootkey L d hd
  have hlen := bkTmp_length rootkey L
  have hle := cumDist_le_length rootkey L d
  apply List.ext_getElem
  · rw [List.length_take, List.length_drop, List.length_reverse, hlen]
    omega
  · intro i h1 h2
    rw [List.length_reverse] at h2
    rw [List.getElem_take, List.getElem_drop, List.getElem_reverse]
    have hidx : cumDist rootkey L (d - 1) + i
        = cumDist rootkey L d - 1 - ((bucketOf rootkey L d).length - 1 - i) := by
      omega
    have ht : (bucketOf rootkey L d).length - 1 - i < (bucketOf rootkey L d).length := by
      omega
    have hi2 : cumDist rootkey L d - 1 - ((bucketOf rootkey L d).length - 1 - i)
        < (bkTmp rootkey L).length := by
      omega
    simp only [hidx]
    rw [bkTmp_getElem rootkey L d _ ht hi2, List.getD_eq_getElem]

/-! ### Fuel irrelevance: `keys.length` is always enough fuel -/

theorem mktree_bkF_nil (f ml : Nat) : mktree_bkF f [] ml = .leaf [] := by
  cases f <;> simp [mktree_bkF]

theorem bkBuildCh_congr (build1 build2 : List Nat → bktree) (tmp : List Nat)
    (cum : Nat → Nat)
    (hb : ∀ b : List Nat, b.length ≤ tmp.length → build1 b = build2 b) :
    ∀ is : List Nat, bkBuildCh build1 tmp cum is = bkBuildCh build2 tmp cum is := by
  intro is
  induction is with
  | nil => rfl
  | cons i is ih =>
    show bkBuildCh build1 tmp cum (i :: is) = bkBuildCh build2 tmp cum (i :: is)
    rw [bkBuildCh, bkBuildCh]
    have hlen : ((tmp.drop (cum (i - 1))).take (cum i - cum (i - 1))).length
        ≤ tmp.length := by
      rw [List.length_take, List.length_drop]
      omega
    rw [hb _ hlen, ih]

theorem mktree_bkF_congr : ∀ (f1 f2 : Nat) (keys : List Nat) (ml : Nat),
    keys.length ≤ f1 → keys.length ≤ f2 →
    mktree_bkF f1 keys ml = mktree_bkF f2 keys ml := by
  intro f1
  induction f1 with
  | zero =>
    intro f2 keys ml h1 _
    have : keys = [] := List.length_eq_zero.mp (by omega)
    subst this
    rw [mktree_bkF_nil, mktree_bkF_nil]
  | succ f1 ih =>
    intro f2 keys ml h1 h2
    match keys with
    | [] => rw [mktree_bkF_nil, mktree_bkF_nil]
    | rootkey :: rest =>
      obtain ⟨g, rfl⟩ : ∃ g, f2 = g + 1 := by
        cases f2 with
        | zero => simp at h2
        | succ g => exact ⟨g, rfl⟩
      rw [mktree_bkF, mktree_bkF]
      by_cases hc : (rootkey :: rest).length ≤ ml ∨ (rootkey :: rest).length ≤ 1
      · rw [if_pos hc, if_pos hc]
      · rw [if_neg hc, if_neg hc]
        have hbuild : ∀ b : List Nat, b.length ≤ (bkTmp rootkey rest).length →
            mktree_bkF f1 b ml = mktree_bkF g b ml := by
          intro b hb
          rw [bkTmp_length] at hb
          simp only [List.length_cons] at h1 h2
          exact ih g b ml (by omega) (by omega)
        exact congrArg (bktree.node rootkey)
          (bkBuildCh_congr _ _ _ _ hbuild (List.range' 1 32))

theorem mktree_bk_leaf (keys : List Nat) (ml : Nat)
    (h : keys.length ≤ ml ∨ keys.length ≤ 1) :
    mktree_bk keys ml = .leaf keys := by
  match keys with
  | [] => exact mktree_bkF_nil _ _
  | k :: rest =>
    show mktree_bkF (rest.length + 1) (k :: rest) ml = _
    rw [mktree_bkF, if_pos (by simpa using h)]

theorem mktree_bk_node (rootkey : Nat) (rest : List Nat) (ml : Nat)
    (h : ¬((rootkey :: rest).length ≤ ml ∨ (rootkey :: rest).length ≤ 1)) :
    mktree_bk (rootkey :: rest) ml
      = .node rootkey (bkBuildCh (fun b => mktree_bk b ml)
          (bkTmp rootkey rest) (cumDist rootkey rest) (List.range' 1 32)) := by
  show mktree_bkF (rest.length + 1) (rootkey :: rest) ml = _
  rw [mktree_bkF, if_neg (by simpa using h)]
  refine congrArg (bktree.node rootkey) (bkBuildCh_congr _ _ _ _ ?_ (List.range' 1 32))
  intro b hb
  rw [bkTmp_length] at hb
  exact mktree_bkF_congr rest.length b.length b ml hb (Nat.le_refl _)

theorem mktree_vpF_nil (f ml : Nat) : mktree_vpF f [] ml = .leaf [] := by
  cases f <;> simp [mktree_vpF]

/-- The threshold value chosen by an internal `mktree_vp` step. -/
def vpThreshold (rootkey : Nat) (rest : List Nat) : Nat :=
  vpAdjust (cumDist rootkey rest) (vpMedian rootkey rest)
    (vpK (cumDist rootkey rest) (vpMedian rootkey rest))

theorem vpSplitKeys_fst_length_le (rootkey kthr : Nat) (ks : List Nat) :
    (vpSplitKeys rootkey kthr ks).1.length ≤ ks.length := by
  rw [vpSplitKeys_eq]
  exact List.length_filter_le _ _

theorem vpSplitKeys_snd_length_le (rootkey kthr : Nat) (ks : List Nat) :
    (vpSplitKeys rootkey kthr ks).2.length ≤ ks.length := by
  rw [vpSplitKeys_eq]
  exact List.length_filter_le _ _

theorem mktree_vpF_congr : ∀ (f1 f2 : Nat) (keys : List Nat) (ml : Nat),
    keys.length ≤ f1 → keys.length ≤ f2 →
    mktree_vpF f1 keys ml = mktree_vpF f2 keys ml := by
  intro f1
  induction f1 with
  | zero =>
    intro f2 keys ml h1 _
    have : keys = [] := List.length_eq_zero.mp (by omega)
    subst this
    rw [mktree_vpF_nil, mktree_vpF_nil]
  | succ f1 ih =>
    intro f2 keys ml h1 h2
    match keys with
    | [] => rw [mktree_vpF_nil, mktree_vpF_nil]
    | rootkey :: rest =>
      obtain ⟨g, rfl⟩ : ∃ g, f2 = g + 1 := by
        cases f2 with
        | zero => simp at h2
        | succ g => exact ⟨g, rfl⟩
      rw [mktree_vpF, mktree_vpF]
      by_cases hc : (rootkey :: rest).length ≤ ml ∨ (rootkey :: rest).length ≤ 1
      · rw [if_pos hc, if_pos hc]
      · rw [if_neg hc, if_neg hc]
        simp only [List.length_cons] at h1 h2
        have e1 : mktree_vpF f1
              (vpSplitKeys rootkey (vpThreshold rootkey rest) rest).1 ml
            = mktree_vpF g
              (vpSplitKeys rootkey (vpThreshold rootkey rest) rest).1 ml :=
          ih g _ ml
            (Nat.le_trans (vpSplitKeys_fst_length_le _ _ _) (by omega))
            (Nat.le_trans (vpSplitKeys_fst_length_le _ _ _) (by omega))
        have e2 : mktree_vpF f1
              (vpSplitKeys rootkey (vpThreshold rootkey rest) rest).2 ml
            = mktree_vpF g
              (vpSplitKeys rootkey (vpThreshold rootkey rest) rest).2 ml :=
          ih g _ ml
            (Nat.le_trans (vpSplitKeys_snd_length_le _ _ _) (by omega))
            (Nat.le_trans (vpSplitKeys_snd_length_le _ _ _) (by omega))
        show vptree.node (vpThreshold rootkey rest) rootkey
            (if 0 < cumDist rootkey rest (vpThreshold rootkey rest)
                  - cumDist rootkey rest 0
              then .some (mktree_vpF f1
                (vpSplitKeys rootkey (vpThreshold rootkey rest) rest).1 ml)
              else .none)
            (if 0 < rest.length - cumDist rootkey rest (vpThreshold rootkey rest)
              then .some (mktree_vpF f1
                (vpSplitKeys rootkey (vpThreshold rootkey rest) rest).2 ml)
              else .none)
          = vptree.node (vpThreshold rootkey rest) rootkey
            (if 0 < cumDist rootkey rest (vpThreshold rootkey rest)
                  - cumDist rootkey rest 0
              then .some (mktree_vpF g
                (vpSplitKeys rootkey (vpThreshold rootkey rest) rest).1 ml)
              else .none)
            (if 0 < rest.length - cumDist rootkey rest (vpThreshold rootkey rest)
              then .some (mktree_vpF g
                (vpSplitKeys rootkey (vpThreshold rootkey rest) rest).2 ml)
              else .none)
        rw [e1, e2]

theorem mktree_vp_leaf (keys : List Nat) (ml : Nat)
    (h : keys.length ≤ ml ∨ keys.length ≤ 1) :
    mktree_vp keys ml = .leaf keys := by
  match keys with
  | [] => exact mktree_vpF_nil _ _
  | k :: rest =>
    show mktree_vpF (rest.length + 1) (k :: rest) ml = _
    rw [mktree_vpF, if_pos (by simpa using h)]

theorem mktree_vp_node (rootkey : Nat) (rest : List Nat) (ml : Nat)
    (h : ¬((rootkey :: rest).length ≤ ml ∨ (rootkey :: rest).length ≤ 1)) :
    mktree_vp (rootkey :: rest) ml
      = .node (vpThreshold rootkey rest) rootkey
          (if 0 < cumDist rootkey rest (vpThreshold rootkey rest)
                - cumDist rootkey rest 0
            then .some (mktree_vp
              (vpSplitKeys rootkey (vpThreshold rootkey rest) rest).1 ml)
            else .none)
          (if 0 < rest.length - cumDist rootkey rest (vpThreshold rootkey rest)
            then .some (mktree_vp
              (vpSplitKeys rootkey (vpThreshold rootkey rest) rest).2 ml)
            else .none) := by
  show mktree_vpF (rest.length + 1) (rootkey :: rest) ml = _
  rw [mktree_vpF, if_neg (by simpa using h)]
  have e1 : mktree_vpF rest.length
        (vpSplitKeys rootkey (vpThreshold rootkey rest) rest).1 ml
      = mktree_vp (vpSplitKeys rootkey (vpThreshold rootkey rest) rest).1 ml :=
    mktree_vpF_congr _ _ _ ml (vpSplitKeys_fst_length_le _ _ _) (Nat.le_refl _)
  have e2 : mktree_vpF rest.length
        (vpSplitKeys rootkey (vpThreshold rootkey rest) rest).2 ml
      = mktree_vp (vpSplitKeys rootkey (vpThreshold rootkey rest) rest).2 ml :=
    mktree_vpF_congr _ _ _ ml (vpSplitKeys_snd_length_le _ _ _) (Nat.le_refl _)
  show vptree.node (vpThreshold rootkey rest) rootkey
      (if 0 < cumDist rootkey rest (vpThreshold rootkey rest)
            - cumDist rootkey rest 0
        then .some (mktree_vpF rest.length
          (vpSplitKeys rootkey (vpThreshold rootkey rest) rest).1 ml)
        else .none)
      (if 0 < rest.length - cumDist rootkey rest (vpThreshold rootkey rest)
        then .some (mktree_vpF rest.length
          (vpSplitKeys rootkey (vpThreshold rootkey rest) rest).2 ml)
        else .none)
    = _
  rw [e1, e2]

/-! ### Structural properties of BK-tree construction -/

theorem chain_lt_range' : ∀ (n s lb : Nat), lb < s →
    List.Chain (· < ·) lb (List.range' s n)
  | 0, s, lb, h => by simp [List.range']
  | n+1, s, lb, h => by
    rw [List.range']
    exact List.Chain.cons h (chain_lt_range' n (s+1) s (by omega))

theorem chain_lt_weaken {lb i : Nat} {is : List Nat} (h : lb < i)
    (hch : List.Chain (· < ·) i is) : List.Chain (· < ·) lb is := by
  cases hch with
  | nil => exact List.Chain.nil
  | cons h' hch' => exact List.Chain.cons (by omega) hch'

/-- The bucket segment passed to the recursive call for distance `i`. -/
def bkSeg (tmp : List Nat) (cum : Nat → Nat) (i : Nat) : List Nat :=
  (tmp.drop (cum (i - 1))).take (cum i - cum (i - 1))

theorem bkSeg_length_le (tmp : List Nat) (cum : Nat → Nat) (i : Nat) :
    (bkSeg tmp cum i).length ≤ tmp.length := by
  rw [bkSeg, List.length_take, List.length_drop]
  omega

theorem bkSeg_eq_reverse_bucket (rootkey : Nat) (rest : List Nat) (i : Nat)
    (hi : 1 ≤ i) :
    bkSeg (bkTmp rootkey rest) (cumDist rootkey rest) i
      = (bucketOf rootkey rest i).reverse := by
  rw [bkSeg]
  exact bkTmp_segment rootkey rest i hi

theorem bkSeg_subset (rootkey : Nat) (rest : List Nat) (i : Nat) (hi : 1 ≤ i) :
    ∀ x ∈ bkSeg (bkTmp rootkey rest) (cumDist rootkey rest) i, x ∈ rest := by
  intro x hx
  rw [bkSeg_eq_reverse_bucket rootkey rest i hi, List.mem_reverse] at hx
  exact List.mem_of_mem_filter hx

theorem bkSeg_dist (rootkey : Nat) (rest : List Nat) (i : Nat) (hi : 1 ≤ i) :
    ∀ x ∈ bkSeg (bkTmp rootkey rest) (cumDist rootkey rest) i,
      distance rootkey x = i := by
  intro x hx
  rw [bkSeg_eq_reverse_bucket rootkey rest i hi, List.mem_reverse] at hx
  have := List.of_mem_filter hx
  simpa using this

theorem bkchKeys_buildCh (build : List Nat → bktree) (tmp : List Nat)
    (cum : Nat → Nat) :
    ∀ is : List Nat, ∀ x ∈ bkchKeys (bkBuildCh build tmp cum is),
      ∃ i ∈ is, x ∈ bkKeys (build (bkSeg tmp cum i)) := by
  intro is
  induction is with
  | nil =>
    intro x hx
    simp [bkBuildCh, bkchKeys] at hx
  | cons i is ih =>
    intro x hx
    rw [bkBuildCh] at hx
    by_cases hlen : cum i - cum (i - 1) = 0
    · rw [if_pos hlen] at hx
      obtain ⟨j, hj, hxj⟩ := ih x hx
      exact ⟨j, List.mem_cons_of_mem _ hj, hxj⟩
    · rw [if_neg hlen] at hx
      rw [bkchKeys] at hx
      rcases List.mem_append.mp hx with h1 | h2
      · exact ⟨i, List.mem_cons_self _ _, h1⟩
      · obtain ⟨j, hj, hxj⟩ := ih x h2
        exact ⟨j, List.mem_cons_of_mem _ hj, hxj⟩

theorem bkKeys_subset : ∀ (n : Nat) (keys : List Nat) (ml : Nat),
    keys.length ≤ n → ∀ x ∈ bkKeys (mktree_bk keys ml), x ∈ keys := by
  intro n
  induction n with
  | zero =>
    intro keys ml hn x hx
    have : keys = [] := List.length_eq_zero.mp (by omega)
    subst this
    rw [mktree_bk_leaf [] ml (by simp)] at hx
    simpa [bkKeys] using hx
  | succ n ih =>
    intro keys ml hn x hx
    by_cases hc : keys.length ≤ ml ∨ keys.length ≤ 1
    · rw [mktree_bk_leaf keys ml hc] at hx
      simpa [bkKeys] using hx
    · obtain ⟨rootkey, rest, rfl⟩ : ∃ rk rs, keys = rk :: rs := by
        cases keys with
        | nil => simp at hc
        | cons a l => exact ⟨a, l, rfl⟩
      rw [mktree_bk_node _ _ _ hc, bkKeys] at hx
      rcases List.mem_cons.mp hx with h1 | h2
      · simp [h1]
      · obtain ⟨i, hi, hxi⟩ := bkchKeys_buildCh (fun b => mktree_bk b ml)
          (bkTmp rootkey rest) (cumDist rootkey rest) (List.range' 1 32) x h2
        have hi1 : 1 ≤ i := (List.mem_range'_1.mp hi).1
        have hxseg : x ∈ bkSeg (bkTmp rootkey rest) (cumDist rootkey rest) i := by
          apply ih (bkSeg (bkTmp rootkey rest) (cumDist rootkey rest) i) ml ?_ x hxi
          have := bkSeg_length_le (bkTmp rootkey rest) (cumDist rootkey rest) i
          rw [bkTmp_length] at this
          simp only [List.length_cons] at hn
          omega
        exact List.mem_cons_of_mem _ (bkSeg_subset rootkey rest i hi1 x hxseg)

theorem bkchInv_dist_gt : ∀ (center lb : Nat) (ch : bkch), bkchInv center lb ch →
    ∀ x ∈ bkchKeys ch, lb < distance center x
  | center, lb, .nil, _ => by
    intro x hx
    simp [bkchKeys] at hx
  | center, lb, .cons c t rest, h => by
    obtain ⟨hlb, hdist, _, hrest⟩ := h
    intro x hx
    rw [bkchKeys] at hx
    rcases List.mem_append.mp hx with h1 | h2
    · rw [hdist x h1]
      exact hlb
    · have := bkchInv_dist_gt center c rest hrest x h2
      omega

mutual
theorem bkInv_keys_lt : ∀ (t : bktree), bkInv t → ∀ x ∈ bkKeys t, x < 2 ^ 32
  | .leaf ks, h => h
  | .node key ch, h => by
    intro x hx
    rw [bkKeys] at hx
    rcases List.mem_cons.mp hx with h1 | h2
    · subst h1
      exact h.1
    · exact bkchInv_keys_lt key 0 ch h.2 x h2
theorem bkchInv_keys_lt : ∀ (center lb : Nat) (ch : bkch), bkchInv center lb ch →
    ∀ x ∈ bkchKeys ch, x < 2 ^ 32
  | _, _, .nil, _ => by
    intro x hx
    simp [bkchKeys] at hx
  | center, lb, .cons c t rest, h => by
    intro x hx
    rw [bkchKeys] at hx
    rcases List.mem_append.mp hx with h1 | h2
    · exact bkInv_keys_lt t h.2.2.1 x h1
    · exact bkchInv_keys_lt center c rest h.2.2.2 x h2
end

theorem bkBuildCh_inv (center : Nat) (build : List Nat → bktree) (tmp : List Nat)
    (cum : Nat → Nat)
    (hinv : ∀ i, 1 ≤ i → bkInv (build (bkSeg tmp cum i)))
    (hsub : ∀ i, 1 ≤ i → ∀ x ∈ bkKeys (build (bkSeg tmp cum i)), x ∈ bkSeg tmp cum i)
    (hdist : ∀ i, 1 ≤ i → ∀ x ∈ bkSeg tmp cum i, distance center x = i) :
    ∀ (is : List Nat) (lb : Nat), List.Chain (· < ·) lb is → (∀ i ∈ is, 1 ≤ i) →
      bkchInv center lb (bkBuildCh build tmp cum is) := by
  intro is
  induction is with
  | nil =>
    intro lb _ _
    rw [bkBuildCh]
    trivial
  | cons i is ih =>
    intro lb hch h1
    cases hch with
    | cons hlb hch' =>
      rw [bkBuildCh]
      have hi1 : 1 ≤ i := h1 i (by simp)
      by_cases hlen : cum i - cum (i - 1) = 0
      · rw [if_pos hlen]
        exact ih lb (chain_lt_weaken hlb hch') (fun j hj => h1 j (by simp [hj]))
      · rw [if_neg hlen]
        refine ⟨hlb, ?_, hinv i hi1, ih i hch' (fun j hj => h1 j (by simp [hj]))⟩
        intro x hx
        exact hdist i hi1 x (hsub i hi1 x hx)

theorem bk_build_inv : ∀ (n : Nat) (keys : List Nat) (ml : Nat), keys.length ≤ n →
    (∀ x ∈ keys, x < 2 ^ 32) → bkInv (mktree_bk keys ml) := by
  intro n
  induction n with
  | zero =>
    intro keys ml hn hb
    have : keys = [] := List.length_eq_zero.mp (by omega)
    subst this
    rw [mktree_bk_leaf [] ml (by simp)]
    intro x hx
    simp at hx
  | succ n ih =>
    intro keys ml hn hb
    by_cases hc : keys.length ≤ ml ∨ keys.length ≤ 1
    · rw [mktree_bk_leaf keys ml hc]
      exact hb
    · obtain ⟨rootkey, rest, rfl⟩ : ∃ rk rs, keys = rk :: rs := by
        cases keys with
        | nil => simp at hc
        | cons a l => exact ⟨a, l, rfl⟩
      rw [mktree_bk_node _ _ _ hc]
      refine ⟨hb rootkey (by simp), ?_⟩
      apply bkBuildCh_inv
      · intro i hi
        apply ih _ ml ?_ ?_
        · have := bkSeg_length_le (bkTmp rootkey rest) (cumDist rootkey rest) i
          rw [bkTmp_length] at this
          simp only [List.length_cons] at hn
          omega
        · intro x hx
          exact hb x (List.mem_cons_of_mem _ (bkSeg_subset rootkey rest i hi x hx))
      · intro i hi x hx
        exact bkKeys_subset _ _ ml (Nat.le_refl _) x hx
      · intro i hi x hx
        exact bkSeg_dist rootkey rest i hi x hx
      · exact chain_lt_range' 32 1 0 (by omega)
      · intro i hi
        exact (List.mem_range'_1.mp hi).1

/-! ### BK construction preserves the key multiset (distinct keys) -/

theorem sum_map_single_hit (x d : Nat) (N : Nat → Multiset Nat) :
    ∀ is : List Nat, is.Nodup → d ∈ is →
      (is.map (fun i => if d = i then x ::ₘ N i else N i)).sum
        = x ::ₘ (is.map N).sum := by
  intro is
  induction is with
  | nil =>
    intro _ hd
    simp at hd
  | cons i is ih =>
    intro hnd hd
    obtain ⟨hni, hnd'⟩ := List.nodup_cons.mp hnd
    rcases List.mem_cons.mp hd with h | h
    · have htail : ∀ j ∈ is, (if d = j then x ::ₘ N j else N j) = N j := by
        intro j hj
        have : d ≠ j := by
          intro hdj
          rw [← h] at hni
          exact hni (hdj ▸ hj)
        rw [if_neg this]
      rw [List.map_cons, List.sum_cons, if_pos h,
          List.map_congr_left htail, Multiset.cons_add, List.map_cons, List.sum_cons]
    · have hdi : d ≠ i := by
        intro hdi
        exact hni (hdi ▸ h)
      rw [List.map_cons, List.sum_cons, if_neg hdi, ih hnd' h,
          List.map_cons, List.sum_cons, Multiset.add_cons]

theorem sum_buckets (rootkey : Nat) :
    ∀ (rest : List Nat) (is : List Nat), is.Nodup →
      (∀ x ∈ rest, distance rootkey x ∈ is) →
      (is.map (fun i => ((bucketOf rootkey rest i : List Nat) : Multiset Nat))).sum
        = (rest : Multiset Nat) := by
  intro rest
  induction rest with
  | nil =>
    intro is _ _
    have : ∀ i ∈ is, ((bucketOf rootkey [] i : List Nat) : Multiset Nat) = 0 := by
      intro i _
      simp [bucketOf]
    rw [List.map_congr_left this]
    have hz : (List.map (fun _ : Nat => (0 : Multiset Nat)) is).sum = 0 :=
      List.sum_eq_zero (by
        intro y hy
        obtain ⟨i, _, rfl⟩ := List.mem_map.mp hy
        rfl)
    rw [hz]
    rfl
  | cons x rest ih =>
    intro is hnd hall
    have hx : distance rootkey x ∈ is := hall x (by simp)
    have hbx : ∀ i ∈ is, ((bucketOf rootkey (x :: rest) i : List Nat) : Multiset Nat)
        = if distance rootkey x = i
          then x ::ₘ ((bucketOf rootkey rest i : List Nat) : Multiset Nat)
          else ((bucketOf rootkey rest i : List Nat) : Multiset Nat) := by
      intro i _
      rw [bucketOf, List.filter_cons]
      by_cases h : distance rootkey x = i
      · simp [h, bucketOf, Multiset.cons_coe]
      · simp [h, bucketOf]
    rw [List.map_congr_left hbx,
        sum_map_single_hit x (distance rootkey x) _ is hnd hx,
        ih is hnd (fun y hy => hall y (by simp [hy])),
        Multiset.cons_coe]

theorem bkchKeys_buildCh_multiset (build : List Nat → bktree) (tmp : List Nat)
    (cum : Nat → Nat)
    (hkeys : ∀ i, 1 ≤ i →
      ((bkKeys (build (bkSeg tmp cum i)) : List Nat) : Multiset Nat)
        = ((bkSeg tmp cum i : List Nat) : Multiset Nat)) :
    ∀ is : List Nat, (∀ i ∈ is, 1 ≤ i) →
      ((bkchKeys (bkBuildCh build tmp cum is) : List Nat) : Multiset Nat)
        = (is.map (fun i => ((bkSeg tmp cum i : List Nat) : Multiset Nat))).sum := by
  intro is
  induction is with
  | nil =>
    intro _
    simp [bkBuildCh, bkchKeys]
  | cons i is ih =>
    intro h1
    have hi1 : 1 ≤ i := h1 i (by simp)
    rw [bkBuildCh, List.map_cons, List.sum_cons]
    by_cases hlen : cum i - cum (i - 1) = 0
    · rw [if_pos hlen]
      have hseg : bkSeg tmp cum i = [] := by
        rw [bkSeg, hlen]
        simp
      rw [ih (fun j hj => h1 j (by simp [hj])), hseg]
      simp
    · rw [if_neg hlen, bkchKeys]
      show ((bkKeys (build (bkSeg tmp cum i))
          ++ bkchKeys (bkBuildCh build tmp cum is) : List Nat) : Multiset Nat) = _
      have : ((bkKeys (build (bkSeg tmp cum i))
            ++ bkchKeys (bkBuildCh build tmp cum is) : List Nat) : Multiset Nat)
          = ((bkKeys (build (bkSeg tmp cum i)) : List Nat) : Multiset Nat)
            + ((bkchKeys (bkBuildCh build tmp cum is) : List Nat) : Multiset Nat) := by
        simp
      rw [this, hkeys i hi1, ih (fun j hj => h1 j (by simp [hj]))]

theorem bk_keys_multiset : ∀ (n : Nat) (keys : List Nat) (ml : Nat),
    keys.length ≤ n → keys.Nodup → (∀ x ∈ keys, x < 2 ^ 32) →
    ((bkKeys (mktree_bk keys ml) : List Nat) : Multiset Nat) = (keys : Multiset Nat) := by
  intro n
  induction n with
  | zero =>
    intro keys ml hn _ _
    have : keys = [] := List.length_eq_zero.mp (by omega)
    subst this
    rw [mktree_bk_leaf [] ml (by simp)]
    rfl
  | succ n ih =>
    intro keys ml hn hnd hb
    by_cases hc : keys.length ≤ ml ∨ keys.length ≤ 1
    · rw [mktree_bk_leaf keys ml hc]
      rfl
    · obtain ⟨rootkey, rest, rfl⟩ : ∃ rk rs, keys = rk :: rs := by
        cases keys with
        | nil => simp at hc
        | cons a l => exact ⟨a, l, rfl⟩
      obtain ⟨hroot_nmem, hnd'⟩ := List.nodup_cons.mp hnd
      rw [mktree_bk_node _ _ _ hc, bkKeys, ← Multiset.cons_coe]
      have hkeys : ∀ i, 1 ≤ i →
          ((bkKeys (mktree_bk (bkSeg (bkTmp rootkey rest)
              (cumDist rootkey rest) i) ml) : List Nat) : Multiset Nat)
            = ((bkSeg (bkTmp rootkey rest) (cumDist rootkey rest) i
                : List Nat) : Multiset Nat) := by
        intro i hi
        apply ih _ ml
        · have := bkSeg_length_le (bkTmp rootkey rest) (cumDist rootkey rest) i
          rw [bkTmp_length] at this
          simp only [List.length_cons] at hn
          omega
        · rw [bkSeg_eq_reverse_bucket rootkey rest i hi, List.nodup_reverse]
          exact hnd'.filter _
        · intro x hx
          exact hb x (List.mem_cons_of_mem _ (bkSeg_subset rootkey rest i hi x hx))
      rw [bkchKeys_buildCh_multiset _ _ _ hkeys (List.range' 1 32)
            (fun i hi => (List.mem_range'_1.mp hi).1)]
      have hseg_eq : ∀ i ∈ List.range' 1 32,
          ((bkSeg (bkTmp rootkey rest) (cumDist rootkey rest) i
              : List Nat) : Multiset Nat)
            = ((bucketOf rootkey rest i : List Nat) : Multiset Nat) := by
        intro i hi
        rw [bkSeg_eq_reverse_bucket rootkey rest i (List.mem_range'_1.mp hi).1,
            Multiset.coe_reverse]
      rw [List.map_congr_left hseg_eq]
      have hall : ∀ x ∈ rest, distance rootkey x ∈ List.range' 1 32 := by
        intro x hx
        rw [List.mem_range'_1]
        have hxlt : x < 2 ^ 32 := hb x (List.mem_cons_of_mem _ hx)
        have hroot : rootkey < 2 ^ 32 := hb rootkey (by simp)
        have hne : rootkey ≠ x := by
          intro h
          exact hroot_nmem (h ▸ hx)
        constructor
        · exact distance_pos_of_ne rootkey x hroot hxlt hne
        · have := distance_le_32 rootkey x hroot hxlt
          omega
      rw [sum_buckets rootkey rest (List.range' 1 32) (by decide) hall,
          Multiset.cons_coe]

/-! ### Correctness of the BK range query -/

theorem coe_append (l1 l2 : List Nat) :
    ((l1 ++ l2 : List Nat) : Multiset Nat)
      = (l1 : Multiset Nat) + (l2 : Multiset Nat) := rfl

mutual
theorem query_bk_correct : ∀ (t : bktree) (ref maxd : Nat), ref < 2 ^ 32 → bkInv t →
    ((query_bk t ref maxd : List Nat) : Multiset Nat)
      = Multiset.filter (fun x => distance ref x ≤ maxd)
          ((bkKeys t : List Nat) : Multiset Nat)
  | .leaf ks, ref, maxd, _, _ => by
    show ((ks.filter (fun k => distance ref k ≤ maxd) : List Nat) : Multiset Nat) = _
    rw [Multiset.filter_coe]
    rfl
  | .node key ch, ref, maxd, href, hinv => by
    obtain ⟨hkey, hch⟩ := hinv
    show (((if distance key ref ≤ maxd then [key] else [])
        ++ bkScan ref maxd (distance key ref) true ch : List Nat) : Multiset Nat) = _
    rw [coe_append,
        bkScan_correct key ch ref maxd 0 true href hkey hch (by simp)]
    show _ = Multiset.filter _ ((key :: bkchKeys ch : List Nat) : Multiset Nat)
    rw [← Multiset.cons_coe, Multiset.filter_cons]
    congr 1
    by_cases hd : distance key ref ≤ maxd
    · rw [if_pos hd, if_pos (by rw [distance_comm ref key]; exact hd)]
      rfl
    · rw [if_neg hd, if_neg (by rw [distance_comm ref key]; exact hd)]
      rfl
theorem bkScan_correct : ∀ (center : Nat) (ch : bkch) (ref maxd lb : Nat)
    (skipping : Bool), ref < 2 ^ 32 → center < 2 ^ 32 → bkchInv center lb ch →
    (skipping = false → distance center ref ≤ lb + maxd) →
    ((bkScan ref maxd (distance center ref) skipping ch : List Nat) : Multiset Nat)
      = Multiset.filter (fun x => distance ref x ≤ maxd)
          ((bkchKeys ch : List Nat) : Multiset Nat)
  | center, .nil, ref, maxd, lb, skipping, _, _, _, _ => by
    show ((([] : List Nat)) : Multiset Nat)
      = Multiset.filter _ ((([] : List Nat)) : Multiset Nat)
    simp
  | center, .cons c t rest, ref, maxd, lb, skipping, href, hc, hinv, hside => by
    obtain ⟨hlb, hdist, hinvT, hinvR⟩ := hinv
    have hbT : ∀ x ∈ bkKeys t, x < 2 ^ 32 := bkInv_keys_lt t hinvT
    show ((if skipping ∧ c + maxd < distance center ref
        then bkScan ref maxd (distance center ref) true rest
        else if c ≤ maxd + distance center ref
          then query_bk t ref maxd ++ bkScan ref maxd (distance center ref) false rest
          else [] : List Nat) : Multiset Nat)
      = Multiset.filter _ ((bkKeys t ++ bkchKeys rest : List Nat) : Multiset Nat)
    rw [coe_append, Multiset.filter_add]
    by_cases h1 : skipping ∧ c + maxd < distance center ref
    · rw [if_pos h1]
      have hT0 : Multiset.filter (fun x => distance ref x ≤ maxd)
          ((bkKeys t : List Nat) : Multiset Nat) = 0 := by
        rw [Multiset.filter_eq_nil]
        intro a ha hp
        have haL : a ∈ bkKeys t := by simpa using ha
        have hda : distance center a = c := hdist a haL
        have halt : a < 2 ^ 32 := hbT a haL
        have htri : distance center ref ≤ distance center a + distance a ref :=
          distance_triangle center a ref hc halt href
        have hcomm : distance a ref = distance ref a := distance_comm a ref
        omega
      rw [hT0, zero_add]
      exact bkScan_correct center rest ref maxd c true href hc hinvR (by simp)
    · rw [if_neg h1]
      by_cases h2 : c ≤ maxd + distance center ref
      · rw [if_pos h2, coe_append,
            query_bk_correct t ref maxd href hinvT,
            bkScan_correct center rest ref maxd c false href hc hinvR ?_]
        intro _
        cases skipping with
        | true =>
          have : ¬(c + maxd < distance center ref) := by
            intro hcon
            exact h1 ⟨rfl, hcon⟩
          omega
        | false =>
          have := hside rfl
          omega
      · rw [if_neg h2]
        have hall : Multiset.filter (fun x => distance ref x ≤ maxd)
              ((bkKeys t : List Nat) : Multiset Nat) = 0
            ∧ Multiset.filter (fun x => distance ref x ≤ maxd)
              ((bkchKeys rest : List Nat) : Multiset Nat) = 0 := by
          constructor
          · rw [Multiset.filter_eq_nil]
            intro a ha hp
            have haL : a ∈ bkKeys t := by simpa using ha
            have hda : distance center a = c := hdist a haL
            have halt : a < 2 ^ 32 := hbT a haL
            have htri : distance center a ≤ distance center ref + distance ref a :=
              distance_triangle center ref a hc href halt
            omega
          · rw [Multiset.filter_eq_nil]
            intro a ha hp
            have haL : a ∈ bkchKeys rest := by simpa using ha
            have hda : c < distance center a := bkchInv_dist_gt center c rest hinvR a haL
            have halt : a < 2 ^ 32 := bkchInv_keys_lt center c rest hinvR a haL
            have htri : distance center a ≤ distance center ref + distance ref a :=
              distance_triangle center ref a hc href halt
            omega
        rw [hall.1, hall.2]
        rfl
end

/-! ### Structural properties of VP-tree construction -/

theorem vpSplit_count (rootkey kthr : Nat) :
    ∀ rest : List Nat, rootkey < 2 ^ 32 → (∀ x ∈ rest, x < 2 ^ 32) →
      rest.countP (fun x => x ≠ rootkey ∧ distance rootkey x ≤ kthr)
          + rest.countP (fun x => distance rootkey x ≤ 0)
        = rest.countP (fun x => distance rootkey x ≤ kthr)
      ∧ rest.countP (fun x => x ≠ rootkey ∧ kthr < distance rootkey x)
          + rest.countP (fun x => distance rootkey x ≤ kthr)
        = rest.length := by
  intro rest hroot hb
  induction rest with
  | nil => simp
  | cons x xs ih =>
    have hxlt : x < 2 ^ 32 := hb x (by simp)
    obtain ⟨ih1, ih2⟩ := ih (fun y hy => hb y (by simp [hy]))
    simp only [List.countP_cons, List.length_cons]
    by_cases hxr : x = rootkey
    · subst hxr
      have h0 : distance x x = 0 := distance_self x
      simp [h0] at ih1 ih2 ⊢
      omega
    · have h1 : 1 ≤ distance rootkey x :=
        distance_pos_of_ne rootkey x hroot hxlt (fun h => hxr h.symm)
      by_cases h2 : distance rootkey x ≤ kthr
      · simp [hxr, h2, Nat.not_le.mpr (by omega : 0 < distance rootkey x),
            Nat.not_lt.mpr h2] at ih1 ih2 ⊢
        omega
      · simp [hxr, h2, Nat.not_le.mpr (by omega : 0 < distance rootkey x),
            Nat.lt_of_not_le h2] at ih1 ih2 ⊢
        omega

theorem vpSplit_fst_length (rootkey kthr : Nat) (rest : List Nat)
    (hroot : rootkey < 2 ^ 32) (hb : ∀ x ∈ rest, x < 2 ^ 32) :
    (vpSplitKeys rootkey kthr rest).1.length + cumDist rootkey rest 0
      = cumDist rootkey rest kthr := by
  rw [vpSplitKeys_eq, cumDist_eq, cumDist_eq]
  rw [← List.countP_eq_length_filter]
  exact (vpSplit_count rootkey kthr rest hroot hb).1

theorem vpSplit_snd_length (rootkey kthr : Nat) (rest : List Nat)
    (hroot : rootkey < 2 ^ 32) (hb : ∀ x ∈ rest, x < 2 ^ 32) :
    (vpSplitKeys rootkey kthr rest).2.length + cumDist rootkey rest kthr
      = rest.length := by
  rw [vpSplitKeys_eq, cumDist_eq]
  rw [← List.countP_eq_length_filter]
  exact (vpSplit_count rootkey kthr rest hroot hb).2

theorem vpSplit_fst_mem (rootkey kthr : Nat) (rest : List Nat) :
    ∀ x ∈ (vpSplitKeys rootkey kthr rest).1,
      x ∈ rest ∧ x ≠ rootkey ∧ distance rootkey x ≤ kthr := by
  intro x hx
  rw [vpSplitKeys_eq] at hx
  refine ⟨List.mem_of_mem_filter hx, ?_⟩
  have := List.of_mem_filter hx
  simpa using this

theorem vpSplit_snd_mem (rootkey kthr : Nat) (rest : List Nat) :
    ∀ x ∈ (vpSplitKeys rootkey kthr rest).2,
      x ∈ rest ∧ x ≠ rootkey ∧ kthr < distance rootkey x := by
  intro x hx
  rw [vpSplitKeys_eq] at hx
  refine ⟨List.mem_of_mem_filter hx, ?_⟩
  have := List.of_mem_filter hx
  simpa using this

theorem vpKeys_subset : ∀ (n : Nat) (keys : List Nat) (ml : Nat),
    keys.length ≤ n → ∀ x ∈ vpKeys (mktree_vp keys ml), x ∈ keys := by
  intro n
  induction n with
  | zero =>
    intro keys ml hn x hx
    have : keys = [] := List.length_eq_zero.mp (by omega)
    subst this
    rw [mktree_vp_leaf [] ml (by simp)] at hx
    simpa [vpKeys] using hx
  | succ n ih =>
    intro keys ml hn x hx
    by_cases hc : keys.length ≤ ml ∨ keys.length ≤ 1
    · rw [mktree_vp_leaf keys ml hc] at hx
      simpa [vpKeys] using hx
    · obtain ⟨rootkey, rest, rfl⟩ : ∃ rk rs, keys = rk :: rs := by
        cases keys with
        | nil => simp at hc
        | cons a l => exact ⟨a, l, rfl⟩
      rw [mktree_vp_node _ _ _ hc, vpKeys] at hx
      simp only [List.length_cons] at hn
      rcases List.mem_cons.mp hx with h1 | h2
      · simp [h1]
      · rcases List.mem_append.mp h2 with h3 | h4
        · -- near child
          by_cases hcn : 0 < cumDist rootkey rest (vpThreshold rootkey rest)
              - cumDist rootkey rest 0
          · rw [if_pos hcn] at h3
            have hx1 : x ∈ (vpSplitKeys rootkey (vpThreshold rootkey rest) rest).1 :=
              ih _ ml (Nat.le_trans (vpSplitKeys_fst_length_le _ _ _) (by omega)) x h3
            exact List.mem_cons_of_mem _ (vpSplit_fst_mem _ _ _ x hx1).1
          · rw [if_neg hcn] at h3
            simp [vpcKeys] at h3
        · -- far child
          by_cases hcf : 0 < rest.length
              - cumDist rootkey rest (vpThreshold rootkey rest)
          · rw [if_pos hcf] at h4
            have hx2 : x ∈ (vpSplitKeys rootkey (vpThreshold rootkey rest) rest).2 :=
              ih _ ml (Nat.le_trans (vpSplitKeys_snd_length_le _ _ _) (by omega)) x h4
            exact List.mem_cons_of_mem _ (vpSplit_snd_mem _ _ _ x hx2).1
          · rw [if_neg hcf] at h4
            simp [vpcKeys] at h4

theorem vp_build_inv : ∀ (n : Nat) (keys : List Nat) (ml : Nat), keys.length ≤ n →
    (∀ x ∈ keys, x < 2 ^ 32) → vpInv (mktree_vp keys ml) := by
  intro n
  induction n with
  | zero =>
    intro keys ml hn hb
    have : keys = [] := List.length_eq_zero.mp (by omega)
    subst this
    rw [mktree_vp_leaf [] ml (by simp)]
    intro x hx
    simp at hx
  | succ n ih =>
    intro keys ml hn hb
    by_cases hc : keys.length ≤ ml ∨ keys.length ≤ 1
    · rw [mktree_vp_leaf keys ml hc]
      exact hb
    · obtain ⟨rootkey, rest, rfl⟩ : ∃ rk rs, keys = rk :: rs := by
        cases keys with
        | nil => simp at hc
        | cons a l => exact ⟨a, l, rfl⟩
      rw [mktree_vp_node _ _ _ hc]
      simp only [List.length_cons] at hn
      refine ⟨hb rootkey (by simp), ?_, ?_, ?_, ?_⟩
      · -- near keys are inside the closed ball
        by_cases hcn : 0 < cumDist rootkey rest (vpThreshold rootkey rest)
            - cumDist rootkey rest 0
        · rw [if_pos hcn]
          intro x hx
          have hx1 : x ∈ (vpSplitKeys rootkey (vpThreshold rootkey rest) rest).1 :=
            vpKeys_subset _ _ ml (Nat.le_refl _) x hx
          exact (vpSplit_fst_mem _ _ _ x hx1).2.2
        · rw [if_neg hcn]
          intro x hx
          simp [vpcKeys] at hx
      · -- far keys are strictly outside
        by_cases hcf : 0 < rest.length - cumDist rootkey rest (vpThreshold rootkey rest)
        · rw [if_pos hcf]
          intro x hx
          have hx2 : x ∈ (vpSplitKeys rootkey (vpThreshold rootkey rest) rest).2 :=
            vpKeys_subset _ _ ml (Nat.le_refl _) x hx
          exact (vpSplit_snd_mem _ _ _ x hx2).2.2
        · rw [if_neg hcf]
          intro x hx
          simp [vpcKeys] at hx
      · by_cases hcn : 0 < cumDist rootkey rest (vpThreshold rootkey rest)
            - cumDist rootkey rest 0
        · rw [if_pos hcn]
          apply ih _ ml (Nat.le_trans (vpSplitKeys_fst_length_le _ _ _) (by omega))
          intro x hx
          exact hb x (List.mem_cons_of_mem _
            (vpSplit_fst_mem _ _ _ x hx).1)
        · rw [if_neg hcn]
          trivial
      · by_cases hcf : 0 < rest.length - cumDist rootkey rest (vpThreshold rootkey rest)
        · rw [if_pos hcf]
          apply ih _ ml (Nat.le_trans (vpSplitKeys_snd_length_le _ _ _) (by omega))
          intro x hx
          exact hb x (List.mem_cons_of_mem _
            (vpSplit_snd_mem _ _ _ x hx).1)
        · rw [if_neg hcf]
          trivial

/-! ### VP construction preserves the key multiset (distinct keys) -/

theorem filter_partition_coe :
    ∀ (rest : List Nat) (p q : Nat → Bool),
      (∀ x ∈ rest, p x = true ↔ q x = false) →
      ((rest.filter p : List Nat) : Multiset Nat) + ↑(rest.filter q) = ↑rest := by
  intro rest
  induction rest with
  | nil =>
    intro p q _
    simp
  | cons x xs ih =>
    intro p q h
    have hx := h x (by simp)
    rw [List.filter_cons, List.filter_cons]
    by_cases hp : p x = true
    · rw [if_pos hp, if_neg (by rw [hx.mp hp]; simp), ← Multiset.cons_coe,
          Multiset.cons_add, ih p q (fun y hy => h y (by simp [hy])),
          Multiset.cons_coe]
    · have hq : q x = true := by
        rcases Bool.eq_false_or_eq_true (q x) with h1 | h1
        · exact h1
        · exact absurd (hx.mpr h1) hp
      rw [if_neg hp, if_pos hq, ← Multiset.cons_coe, Multiset.add_cons,
          ih p q (fun y hy => h y (by simp [hy])), Multiset.cons_coe]

theorem vp_keys_multiset : ∀ (n : Nat) (keys : List Nat) (ml : Nat),
    keys.length ≤ n → keys.Nodup → (∀ x ∈ keys, x < 2 ^ 32) →
    ((vpKeys (mktree_vp keys ml) : List Nat) : Multiset Nat) = (keys : Multiset Nat) := by
  intro n
  induction n with
  | zero =>
    intro keys ml hn _ _
    have : keys = [] := List.length_eq_zero.mp (by omega)
    subst this
    rw [mktree_vp_leaf [] ml (by simp)]
    rfl
  | succ n ih =>
    intro keys ml hn hnd hb
    by_cases hc : keys.length ≤ ml ∨ keys.length ≤ 1
    · rw [mktree_vp_leaf keys ml hc]
      rfl
    · obtain ⟨rootkey, rest, rfl⟩ : ∃ rk rs, keys = rk :: rs := by
        cases keys with
        | nil => simp at hc
        | cons a l => exact ⟨a, l, rfl⟩
      obtain ⟨hroot_nmem, hnd'⟩ := List.nodup_cons.mp hnd
      have hroot : rootkey < 2 ^ 32 := hb rootkey (by simp)
      have hbr : ∀ x ∈ rest, x < 2 ^ 32 := fun x hx => hb x (by simp [hx])
      simp only [List.length_cons] at hn
      rw [mktree_vp_node _ _ _ hc, vpKeys, ← Multiset.cons_coe, coe_append]
      have hnear : ((vpcKeys (if 0 < cumDist rootkey rest (vpThreshold rootkey rest)
              - cumDist rootkey rest 0
            then vpchild.some (mktree_vp
              (vpSplitKeys rootkey (vpThreshold rootkey rest) rest).1 ml)
            else vpchild.none) : List Nat) : Multiset Nat)
          = ((vpSplitKeys rootkey (vpThreshold rootkey rest) rest).1 : Multiset Nat) := by
        by_cases hcn : 0 < cumDist rootkey rest (vpThreshold rootkey rest)
            - cumDist rootkey rest 0
        · rw [if_pos hcn]
          show ((vpKeys (mktree_vp
              (vpSplitKeys rootkey (vpThreshold rootkey rest) rest).1 ml)
              : List Nat) : Multiset Nat) = _
          apply ih _ ml (Nat.le_trans (vpSplitKeys_fst_length_le _ _ _) (by omega))
          · rw [vpSplitKeys_eq]
            exact hnd'.filter _
          · intro x hx
            exact hbr x (vpSplit_fst_mem _ _ _ x hx).1
        · rw [if_neg hcn]
          have hlen := vpSplit_fst_length rootkey (vpThreshold rootkey rest) rest
            hroot hbr
          have hmono := cumDist_mono rootkey rest
            (Nat.zero_le (vpThreshold rootkey rest))
          have : (vpSplitKeys rootkey (vpThreshold rootkey rest) rest).1 = [] :=
            List.length_eq_zero.mp (by omega)
          rw [this]
          rfl
      have hfar : ((vpcKeys (if 0 < rest.length
              - cumDist rootkey rest (vpThreshold rootkey rest)
            then vpchild.some (mktree_vp
              (vpSplitKeys rootkey (vpThreshold rootkey rest) rest).2 ml)
            else vpchild.none) : List Nat) : Multiset Nat)
          = ((vpSplitKeys rootkey (vpThreshold rootkey rest) rest).2 : Multiset Nat) := by
        by_cases hcf : 0 < rest.length - cumDist rootkey rest (vpThreshold rootkey rest)
        · rw [if_pos hcf]
          show ((vpKeys (mktree_vp
              (vpSplitKeys rootkey (vpThreshold rootkey rest) rest).2 ml)
              : List Nat) : Multiset Nat) = _
          apply ih _ ml (Nat.le_trans (vpSplitKeys_snd_length_le _ _ _) (by omega))
          · rw [vpSplitKeys_eq]
            exact hnd'.filter _
          · intro x hx
            exact hbr x (vpSplit_snd_mem _ _ _ x hx).1
        · rw [if_neg hcf]
          have hlen := vpSplit_snd_length rootkey (vpThreshold rootkey rest) rest
            hroot hbr
          have hle := cumDist_le_length rootkey rest (vpThreshold rootkey rest)
          have : (vpSplitKeys rootkey (vpThreshold rootkey rest) rest).2 = [] :=
            List.length_eq_zero.mp (by omega)
          rw [this]
          rfl
      rw [hnear, hfar, vpSplitKeys_eq]
      have hpart := filter_partition_coe rest
        (fun x => decide (x ≠ rootkey ∧ distance rootkey x ≤ vpThreshold rootkey rest))
        (fun x => decide (x ≠ rootkey ∧ vpThreshold rootkey rest < distance rootkey x))
        (by
          intro x hx
          have hxne : x ≠ rootkey := by
            intro h
            exact hroot_nmem (h ▸ hx)
          simp [hxne])
      rw [hpart, Multiset.cons_coe]

/-! ### Correctness of the VP range query -/

mutual
theorem vpInv_keys_lt : ∀ (t : vptree), vpInv t → ∀ x ∈ vpKeys t, x < 2 ^ 32
  | .leaf ks, h => h
  | .node thr v near far, h => by
    intro x hx
    rw [vpKeys] at hx
    rcases List.mem_cons.mp hx with h1 | h2
    · subst h1
      exact h.1
    · rcases List.mem_append.mp h2 with h3 | h4
      · exact vpcInv_keys_lt near h.2.2.2.1 x h3
      · exact vpcInv_keys_lt far h.2.2.2.2 x h4
theorem vpcInv_keys_lt : ∀ (c : vpchild), vpcInv c → ∀ x ∈ vpcKeys c, x < 2 ^ 32
  | .none, _ => by
    intro x hx
    simp [vpcKeys] at hx
  | .some t, h => vpInv_keys_lt t h
end

mutual
theorem query_vp_correct : ∀ (t : vptree) (ref maxd : Nat), ref < 2 ^ 32 → vpInv t →
    ((query_vp t ref maxd : List Nat) : Multiset Nat)
      = Multiset.filter (fun x => distance ref x ≤ maxd)
          ((vpKeys t : List Nat) : Multiset Nat)
  | .leaf ks, ref, maxd, _, _ => by
    show ((ks.filter (fun k => distance ref k ≤ maxd) : List Nat) : Multiset Nat) = _
    rw [Multiset.filter_coe]
    rfl
  | .node thr v near far, ref, maxd, href, hinv => by
    obtain ⟨hv, hnear, hfar, hinvN, hinvF⟩ := hinv
    show (((if distance v ref ≤ maxd + thr
        then queryChild_vp near ref maxd
          ++ (if distance v ref ≤ maxd then [v] else [])
        else [])
        ++ (if thr < distance v ref + maxd
          then queryChild_vp far ref maxd else []) : List Nat) : Multiset Nat)
      = Multiset.filter _ ((v :: (vpcKeys near ++ vpcKeys far) : List Nat) : Multiset Nat)
    rw [coe_append, ← Multiset.cons_coe, Multiset.filter_cons, coe_append,
        Multiset.filter_add]
    have heqN := queryChild_vp_correct near ref maxd href hinvN
    have heqF := queryChild_vp_correct far ref maxd href hinvF
    have hbN : ∀ x ∈ vpcKeys near, x < 2 ^ 32 := vpcInv_keys_lt near hinvN
    have hbF : ∀ x ∈ vpcKeys far, x < 2 ^ 32 := vpcInv_keys_lt far hinvF
    have hemit : ((if distance v ref ≤ maxd then [v] else [] : List Nat) : Multiset Nat)
        = if distance ref v ≤ maxd then ({v} : Multiset Nat) else 0 := by
      rw [distance_comm ref v]
      by_cases hd : distance v ref ≤ maxd
      · rw [if_pos hd, if_pos hd]
        rfl
      · rw [if_neg hd, if_neg hd]
        rfl
    by_cases h1 : distance v ref ≤ maxd + thr
    · rw [if_pos h1, coe_append, heqN, hemit]
      by_cases h2 : thr < distance v ref + maxd
      · rw [if_pos h2, heqF]
        have habc : ∀ (a b c : Multiset Nat), a + b + c = b + (a + c) := by
          intro a b c
          rw [← add_assoc, add_comm a b, add_assoc]
        exact habc _ _ _
      · rw [if_neg h2]
        have hF0 : Multiset.filter (fun x => distance ref x ≤ maxd)
            ((vpcKeys far : List Nat) : Multiset Nat) = 0 := by
          rw [Multiset.filter_eq_nil]
          intro a ha hp
          have haL : a ∈ vpcKeys far := by simpa using ha
          have hda : thr < distance v a := hfar a haL
          have halt : a < 2 ^ 32 := hbF a haL
          have htri : distance v a ≤ distance v ref + distance ref a :=
            distance_triangle v ref a hv href halt
          omega
        rw [hF0]
        have hab : ∀ (a b : Multiset Nat), a + b + 0 = b + (a + 0) := by
          intro a b
          rw [add_zero, add_zero, add_comm]
        exact hab _ _
    · rw [if_neg h1]
      have hN0 : Multiset.filter (fun x => distance ref x ≤ maxd)
          ((vpcKeys near : List Nat) : Multiset Nat) = 0 := by
        rw [Multiset.filter_eq_nil]
        intro a ha hp
        have haL : a ∈ vpcKeys near := by simpa using ha
        have hda : distance v a ≤ thr := hnear a haL
        have halt : a < 2 ^ 32 := hbN a haL
        have htri : distance v ref ≤ distance v a + distance a ref :=
          distance_triangle v a ref hv halt href
        have hcm : distance a ref = distance ref a := distance_comm a ref
        omega
      have hv0 : ¬(distance ref v ≤ maxd) := by
        rw [distance_comm ref v]
        omega
      have h2 : thr < distance v ref + maxd := by
        omega
      rw [if_pos h2, heqF, hN0, if_neg hv0]
      simp
theorem queryChild_vp_correct : ∀ (c : vpchild) (ref maxd : Nat), ref < 2 ^ 32 →
    vpcInv c →
    ((queryChild_vp c ref maxd : List Nat) : Multiset Nat)
      = Multiset.filter (fun x => distance ref x ≤ maxd)
          ((vpcKeys c : List Nat) : Multiset Nat)
  | .none, ref, maxd, _, _ => by
    show ((([] : List Nat)) : Multiset Nat) = Multiset.filter _ ((([] : List Nat)) : Multiset Nat)
    simp
  | .some t, ref, maxd, href, hinv => query_vp_correct t ref maxd href hinv
end

/-! ### Leaf sizes -/

theorem bkchLeaves_buildCh (build : List Nat → bktree) (tmp : List Nat)
    (cum : Nat → Nat) :
    ∀ is : List Nat, ∀ l ∈ bkchLeaves (bkBuildCh build tmp cum is),
      ∃ i ∈ is, cum i - cum (i - 1) ≠ 0 ∧ l ∈ bkLeaves (build (bkSeg tmp cum i)) := by
  intro is
  induction is with
  | nil =>
    intro l hl
    simp [bkBuildCh, bkchLeaves] at hl
  | cons i is ih =>
    intro l hl
    rw [bkBuildCh] at hl
    by_cases hlen : cum i - cum (i - 1) = 0
    · rw [if_pos hlen] at hl
      obtain ⟨j, hj, hxj⟩ := ih l hl
      exact ⟨j, List.mem_cons_of_mem _ hj, hxj⟩
    · rw [if_neg hlen] at hl
      rw [bkchLeaves] at hl
      rcases List.mem_append.mp hl with h1 | h2
      · exact ⟨i, List.mem_cons_self _ _, hlen, h1⟩
      · obtain ⟨j, hj, hxj⟩ := ih l h2
        exact ⟨j, List.mem_cons_of_mem _ hj, hxj⟩

theorem bkSeg_length_pos (rootkey : Nat) (rest : List Nat) (i : Nat) (hi : 1 ≤ i)
    (hlen : cumDist rootkey rest i - cumDist rootkey rest (i - 1) ≠ 0) :
    1 ≤ (bkSeg (bkTmp rootkey rest) (cumDist rootkey rest) i).length := by
  rw [bkSeg, List.length_take, List.length_drop, bkTmp_length]
  have h1 := cumDist_le_length rootkey rest i
  have h2 := cumDist_mono rootkey rest (show i - 1 ≤ i by omega)
  omega

theorem bk_leaf_sizes : ∀ (n : Nat) (keys : List Nat) (ml : Nat),
    keys.length ≤ n → 1 ≤ keys.length →
    ∀ l ∈ bkLeaves (mktree_bk keys ml),
      1 ≤ l.length ∧ (l.length ≤ ml ∨ l.length = 1) := by
  intro n
  induction n with
  | zero =>
    intro keys ml hn h1
    omega
  | succ n ih =>
    intro keys ml hn h1 l hl
    by_cases hc : keys.length ≤ ml ∨ keys.length ≤ 1
    · rw [mktree_bk_leaf keys ml hc] at hl
      have : l = keys := by simpa [bkLeaves] using hl
      subst this
      omega
    · obtain ⟨rootkey, rest, rfl⟩ : ∃ rk rs, keys = rk :: rs := by
        cases keys with
        | nil => simp at hc
        | cons a l => exact ⟨a, l, rfl⟩
      rw [mktree_bk_node _ _ _ hc] at hl
      have hl' : l ∈ bkchLeaves (bkBuildCh (fun b => mktree_bk b ml)
          (bkTmp rootkey rest) (cumDist rootkey rest) (List.range' 1 32)) := hl
      obtain ⟨i, hi, hlen, hmem⟩ := bkchLeaves_buildCh _ _ _ _ l hl'
      have hi1 : 1 ≤ i := (List.mem_range'_1.mp hi).1
      apply ih _ ml ?_ (bkSeg_length_pos rootkey rest i hi1 hlen) l hmem
      have := bkSeg_length_le (bkTmp rootkey rest) (cumDist rootkey rest) i
      rw [bkTmp_length] at this
      simp only [List.length_cons] at hn
      omega

theorem vp_leaf_sizes : ∀ (n : Nat) (keys : List Nat) (ml : Nat),
    keys.length ≤ n → 1 ≤ keys.length → (∀ x ∈ keys, x < 2 ^ 32) →
    ∀ l ∈ vpLeaves (mktree_vp keys ml),
      1 ≤ l.length ∧ (l.length ≤ ml ∨ l.length = 1) := by
  intro n
  induction n with
  | zero =>
    intro keys ml hn h1
    omega
  | succ n ih =>
    intro keys ml hn h1 hb l hl
    by_cases hc : keys.length ≤ ml ∨ keys.length ≤ 1
    · rw [mktree_vp_leaf keys ml hc] at hl
      have : l = keys := by simpa [vpLeaves] using hl
      subst this
      omega
    · obtain ⟨rootkey, rest, rfl⟩ : ∃ rk rs, keys = rk :: rs := by
        cases keys with
        | nil => simp at hc
        | cons a l => exact ⟨a, l, rfl⟩
      have hroot : rootkey < 2 ^ 32 := hb rootkey (by simp)
      have hbr : ∀ x ∈ rest, x < 2 ^ 32 := fun x hx => hb x (by simp [hx])
      simp only [List.length_cons] at hn
      rw [mktree_vp_node _ _ _ hc] at hl
      rw [vpLeaves] at hl
      rcases List.mem_append.mp hl with h3 | h4
      · by_cases hcn : 0 < cumDist rootkey rest (vpThreshold rootkey rest)
            - cumDist rootkey rest 0
        · rw [if_pos hcn] at h3
          have hlen := vpSplit_fst_length rootkey (vpThreshold rootkey rest) rest
            hroot hbr
          apply ih _ ml
            (Nat.le_trans (vpSplitKeys_fst_length_le _ _ _) (by omega))
            (by omega)
            (fun x hx => hbr x (vpSplit_fst_mem _ _ _ x hx).1) l h3
        · rw [if_neg hcn] at h3
          simp [vpcLeaves] at h3
      · by_cases hcf : 0 < rest.length - cumDist rootkey rest (vpThreshold rootkey rest)
        · rw [if_pos hcf] at h4
          have hlen := vpSplit_snd_length rootkey (vpThreshold rootkey rest) rest
            hroot hbr
          apply ih _ ml
            (Nat.le_trans (vpSplitKeys_snd_length_le _ _ _) (by omega))
            (by omega)
            (fun x hx => hbr x (vpSplit_snd_mem _ _ _ x hx).1) l h4
        · rw [if_neg hcf] at h4
          simp [vpcLeaves] at h4

theorem bkIsLeaf_iff (keys : List Nat) (ml : Nat) (hk : keys ≠ []) :
    bkIsLeaf (mktree_bk keys ml) = true ↔ (keys.length ≤ ml ∨ keys.length ≤ 1) := by
  by_cases hc : keys.length ≤ ml ∨ keys.length ≤ 1
  · rw [mktree_bk_leaf keys ml hc]
    simp [bkIsLeaf, hc]
  · obtain ⟨rootkey, rest, rfl⟩ : ∃ rk rs, keys = rk :: rs := by
      cases keys with
      | nil => exact absurd rfl hk
      | cons a l => exact ⟨a, l, rfl⟩
    rw [mktree_bk_node _ _ _ hc]
    push_neg at hc
    simp only [List.length_cons] at hc
    simp [bkIsLeaf]
    refine ⟨by omega, ?_⟩
    intro h
    subst h
    simp at hc

theorem vpIsLeaf_iff (keys : List Nat) (ml : Nat) (hk : keys ≠ []) :
    vpIsLeaf (mktree_vp keys ml) = true ↔ (keys.length ≤ ml ∨ keys.length ≤ 1) := by
  by_cases hc : keys.length ≤ ml ∨ keys.length ≤ 1
  · rw [mktree_vp_leaf keys ml hc]
    simp [vpIsLeaf, hc]
  · obtain ⟨rootkey, rest, rfl⟩ : ∃ rk rs, keys = rk :: rs := by
      cases keys with
      | nil => exact absurd rfl hk
      | cons a l => exact ⟨a, l, rfl⟩
    rw [mktree_vp_node _ _ _ hc]
    push_neg at hc
    simp only [List.length_cons] at hc
    simp [vpIsLeaf]
    refine ⟨by omega, ?_⟩
    intro h
    subst h
    simp at hc

/-! ### The VP threshold-selection loop -/

theorem vpKAux_spec : ∀ (left k : Nat) (cum : Nat → Nat) (median : Nat),
    k ≤ vpKAux cum median left k
    ∧ vpKAux cum median left k ≤ k + left
    ∧ (vpKAux cum median left k < k + left → median < cum (vpKAux cum median left k))
    ∧ (∀ j, k ≤ j → j < vpKAux cum median left k → cum j ≤ median) := by
  intro left
  induction left with
  | zero =>
    intro k cum median
    refine ⟨Nat.le_refl _, Nat.le_refl _, ?_, ?_⟩
    · intro h
      rw [vpKAux] at h ⊢
      omega
    · intro j hj1 hj2
      rw [vpKAux] at hj2
      omega
  | succ left ih =>
    intro k cum median
    rw [vpKAux]
    by_cases h : median < cum k
    · rw [if_pos h]
      refine ⟨Nat.le_refl _, by omega, fun _ => h, ?_⟩
      intro j hj1 hj2
      omega
    · rw [if_neg h]
      obtain ⟨ih1, ih2, ih3, ih4⟩ := ih (k+1) cum median
      refine ⟨by omega, by omega, ?_, ?_⟩
      · intro hlt
        exact ih3 (by omega)
      · intro j hj1 hj2
        rcases Nat.eq_or_lt_of_le hj1 with heq | hlt
        · subst heq
          exact Nat.not_lt.mp h
        · exact ih4 j (by omega) hj2

/-- Specification of the threshold loop `vpK`: it returns the smallest
`k` in `[1, 32]` with `dcnt[k] > median`, or 33 when there is none. -/
theorem vpK_spec (cum : Nat → Nat) (median : Nat) :
    1 ≤ vpK cum median ∧ vpK cum median ≤ 33
    ∧ (vpK cum median ≤ 32 → median < cum (vpK cum median))
    ∧ (∀ j, 1 ≤ j → j < vpK cum median → cum j ≤ median) := by
  unfold vpK
  obtain ⟨h1, h2, h3, h4⟩ := vpKAux_spec 32 1 cum median
  exact ⟨h1, by omega, fun h => h3 (by omega), h4⟩

theorem countP_lt_of_mem_false {p : Nat → Bool} :
    ∀ (l : List Nat) (x : Nat), x ∈ l → p x = false → l.countP p < l.length := by
  intro l
  induction l with
  | nil =>
    intro x hx
    simp at hx
  | cons y ys ih =>
    intro x hx hp
    rw [List.countP_cons, List.length_cons]
    rcases List.mem_cons.mp hx with h | h
    · subst h
      rw [hp]
      have := List.countP_le_length (p := p) (l := ys)
      simp
      omega
    · have := ih x h hp
      by_cases hy : p y = true <;> simp [hy] <;> omega

/-- When at least one remaining key is at nonzero distance from the
vantage, the loop exit value is in `[1, 32]`. -/
theorem vpK_le_32 (rootkey : Nat) (rest : List Nat) (hroot : rootkey < 2 ^ 32)
    (hb : ∀ x ∈ rest, x < 2 ^ 32)
    (hx : ∃ x ∈ rest, distance rootkey x ≠ 0) :
    vpK (cumDist rootkey rest) (vpMedian rootkey rest) ≤ 32 := by
  obtain ⟨h1, h2, h3, h4⟩ := vpK_spec (cumDist rootkey rest) (vpMedian rootkey rest)
  by_contra hgt
  have h33 : vpK (cumDist rootkey rest) (vpMedian rootkey rest) = 33 := by omega
  have hc32 : cumDist rootkey rest 32 ≤ vpMedian rootkey rest :=
    h4 32 (by omega) (by omega)
  have hall : cumDist rootkey rest 32 = rest.length := cumDist_32 rootkey rest hroot hb
  obtain ⟨x, hxm, hxd⟩ := hx
  have hc0 : cumDist rootkey rest 0 < rest.length := by
    rw [cumDist_eq]
    apply countP_lt_of_mem_false rest x hxm
    simp only [decide_eq_false_iff_not]
    omega
  rw [vpMedian] at hc32
  omega

/-! ### The BK scan visits exactly the buckets within the triangle bound -/

def bkchPairs : bkch → List (Nat × bktree)
  | .nil => []
  | .cons c t rest => (c, t) :: bkchPairs rest

/-- Bucket distances strictly increase along the sibling chain, starting
above `lb`. -/
def bkchSortedFrom (lb : Nat) : bkch → Prop
  | .nil => True
  | .cons c _ rest => lb < c ∧ bkchSortedFrom c rest

theorem bkchSortedFrom_pairs : ∀ (lb : Nat) (ch : bkch), bkchSortedFrom lb ch →
    ∀ p ∈ bkchPairs ch, lb < p.1
  | _, .nil, _ => by
    intro p hp
    simp [bkchPairs] at hp
  | lb, .cons c t rest, h => by
    intro p hp
    rw [bkchPairs] at hp
    rcases List.mem_cons.mp hp with h1 | h2
    · subst h1
      exact h.1
    · have hlbc := h.1
      have := bkchSortedFrom_pairs c rest h.2 p h2
      omega

theorem bkScan_sorted_eq (ref maxd d : Nat) :
    ∀ (ch : bkch) (lb : Nat) (skipping : Bool), bkchSortedFrom lb ch →
      (skipping = false → d ≤ lb + maxd) →
      bkScan ref maxd d skipping ch
        = ((bkchPairs ch).filter
              (fun p => d - maxd ≤ p.1 ∧ p.1 ≤ maxd + d)).flatMap
            (fun p => query_bk p.2 ref maxd)
  | .nil, lb, skipping, _, _ => by
    show ([] : List Nat) = _
    rw [bkchPairs]
    simp
  | .cons c t rest, lb, skipping, hs, hside => by
    obtain ⟨hlb, hrest⟩ := hs
    show (if skipping ∧ c + maxd < d then bkScan ref maxd d true rest
        else if c ≤ maxd + d
          then query_bk t ref maxd ++ bkScan ref maxd d false rest
          else []) = _
    rw [bkchPairs]
    by_cases h1 : skipping ∧ c + maxd < d
    · rw [if_pos h1]
      rw [List.filter_cons_of_neg (by
        simp only [decide_eq_true_eq]
        omega)]
      exact bkScan_sorted_eq ref maxd d rest c true hrest (by simp)
    · rw [if_neg h1]
      by_cases h2 : c ≤ maxd + d
      · rw [if_pos h2]
        have hfirst : d ≤ c + maxd := by
          cases skipping with
          | true =>
            have : ¬(c + maxd < d) := fun hcon => h1 ⟨rfl, hcon⟩
            omega
          | false =>
            have := hside rfl
            omega
        rw [List.filter_cons_of_pos (by
          simp only [decide_eq_true_eq]
          omega)]
        rw [List.flatMap_cons]
        congr 1
        exact bkScan_sorted_eq ref maxd d rest c false hrest (by
          intro _
          omega)
      · rw [if_neg h2]
        rw [List.filter_cons_of_neg (by
          simp only [decide_eq_true_eq]
          omega)]
        have hnil : (bkchPairs rest).filter
            (fun p => decide (d - maxd ≤ p.1 ∧ p.1 ≤ maxd + d)) = [] := by
          rw [List.filter_eq_nil_iff]
          intro p hp
          have := bkchSortedFrom_pairs c rest hrest p hp
          simp only [decide_eq_true_eq]
          omega
        rw [hnil]
        simp

/-! ### The claims -/

/-- Claim C4: for a VP internal node with vantage `v` and threshold `thr`,
on a query `(ref, maxd)` with `d = distance v ref`, the result consists of
the near subtree's results exactly when `d ≤ maxd + thr`, the vantage
itself exactly when `d ≤ maxd`, and the far subtree's results exactly when
`thr < d + maxd`. -/
theorem C4_vp_node_visit_conditions (thr v : Nat) (near far : vpchild)
    (ref maxd : Nat) :
    query_vp (.node thr v near far) ref maxd
      = (if distance v ref ≤ maxd + thr then queryChild_vp near ref maxd else [])
        ++ (if distance v ref ≤ maxd then [v] else [])
        ++ (if thr < distance v ref + maxd then queryChild_vp far ref maxd
            else []) := by
  show (if distance v ref ≤ maxd + thr then
        queryChild_vp near ref maxd ++ (if distance v ref ≤ maxd then [v] else [])
      else [])
      ++ (if thr < distance v ref + maxd then queryChild_vp far ref maxd else [])
    = _
  by_cases h : distance v ref ≤ maxd + thr
  · rw [if_pos h, if_pos h, List.append_assoc]
  · rw [if_neg h, if_neg h, if_neg (show ¬(distance v ref ≤ maxd) by omega)]
    simp

/-- Claim C1 (amended: the key set must be duplicate-free, since both
builds silently drop keys equal to the chosen pivot): for every
duplicate-free 32-bit key set, every `max_leaf_size ≥ 1`, every 32-bit
reference key and every `maxd ≤ 32`, the multisets returned by the
BK-tree query and by the VP-tree query equal the multiset returned by
the linear-scan query. -/
theorem C1_bk_vp_query_agrees_with_linear (keys : List Nat) (ml ref maxd : Nat)
    (hml : 1 ≤ ml) (hmaxd : maxd ≤ 32) (hnd : keys.Nodup)
    (hb : ∀ x ∈ keys, x < 2 ^ 32) (href : ref < 2 ^ 32) :
    ((query_bk (mktree_bk keys ml) ref maxd : List Nat) : Multiset Nat)
        = ((query_linear (mktree_linear keys) ref maxd : List Nat) : Multiset Nat)
    ∧ ((query_vp (mktree_vp keys ml) ref maxd : List Nat) : Multiset Nat)
        = ((query_linear (mktree_linear keys) ref maxd : List Nat) : Multiset Nat) := by
  have hlin : ((query_linear (mktree_linear keys) ref maxd : List Nat) : Multiset Nat)
      = Multiset.filter (fun x => distance ref x ≤ maxd)
          ((keys : List Nat) : Multiset Nat) := by
    show ((keys.filter (fun k => distance ref k ≤ maxd) : List Nat) : Multiset Nat) = _
    rw [Multiset.filter_coe]
  constructor
  · rw [query_bk_correct (mktree_bk keys ml) ref maxd href
        (bk_build_inv keys.length keys ml le_rfl hb),
      bk_keys_multiset keys.length keys ml le_rfl hnd hb, hlin]
  · rw [query_vp_correct (mktree_vp keys ml) ref maxd href
        (vp_build_inv keys.length keys ml le_rfl hb),
      vp_keys_multiset keys.length keys ml le_rfl hnd hb, hlin]

theorem C1_witness :
    ((query_bk (mktree_bk [3, 5] 1) 3 0 : List Nat) : Multiset Nat)
        = ((query_linear (mktree_linear [3, 5]) 3 0 : List Nat) : Multiset Nat)
    ∧ ((query_vp (mktree_vp [3, 5] 1) 3 0 : List Nat) : Multiset Nat)
        = ((query_linear (mktree_linear [3, 5]) 3 0 : List Nat) : Multiset Nat) :=
  C1_bk_vp_query_agrees_with_linear [3, 5] 1 3 0 (by decide) (by decide) (by decide)
    (by decide) (by decide)

/-- With a duplicated key the original C1 fails: the BK build drops the
second copy of `5` (its bucket distance from the pivot `5` is `0` and the
children loop starts at distance `1`), so the query returns one `5` where
the linear scan returns two. -/
theorem C1_duplicates_counterexample :
    ¬(((query_bk (mktree_bk [5, 5, 3] 1) 5 0 : List Nat) : Multiset Nat)
        = ((query_linear (mktree_linear [5, 5, 3]) 5 0 : List Nat) : Multiset Nat)) := by
  decide

/-- Claim C2 (amended in two ways: the key chosen as a pivot is stored at
the internal node rather than in a leaf, so "leaf" must read "node", and
the key set must be duplicate-free, since keys equal to the pivot are
dropped): for every duplicate-free array of `n ≥ 1` 32-bit keys and every
`max_leaf_size`, the multiset of keys stored in the built tree — leaf
contents together with internal pivots — is exactly the input multiset,
for both the BK build and the VP build. -/
theorem C2_build_preserves_key_multiset (keys : List Nat) (ml : Nat)
    (h1 : 1 ≤ keys.length) (hnd : keys.Nodup) (hb : ∀ x ∈ keys, x < 2 ^ 32) :
    ((bkKeys (mktree_bk keys ml) : List Nat) : Multiset Nat) = (keys : Multiset Nat)
    ∧ ((vpKeys (mktree_vp keys ml) : List Nat) : Multiset Nat)
        = (keys : Multiset Nat) :=
  ⟨bk_keys_multiset keys.length keys ml le_rfl hnd hb,
   vp_keys_multiset keys.length keys ml le_rfl hnd hb⟩

theorem C2_witness :
    ((bkKeys (mktree_bk [1, 2, 3] 1) : List Nat) : Multiset Nat)
        = ([1, 2, 3] : Multiset Nat)
    ∧ ((vpKeys (mktree_vp [1, 2, 3] 1) : List Nat) : Multiset Nat)
        = ([1, 2, 3] : Multiset Nat) :=
  C2_build_preserves_key_multiset [1, 2, 3] 1 (by decide) (by decide) (by decide)

/-- As stated the claim fails: for the input `[5, 5, 3]` the key `5`
occurs twice but occurs in no leaf of either built tree (one copy becomes
the pivot of the root node, the other is dropped by the build). -/
theorem C2_leaf_keys_counterexample :
    ((bkLeaves (mktree_bk [5, 5, 3] 1)).flatten.count 5 = 0
      ∧ (vpLeaves (mktree_vp [5, 5, 3] 1)).flatten.count 5 = 0)
    ∧ [5, 5, 3].count 5 = 2 := by
  decide

/-- Claim C3: at a BK internal node with center `c0`, since the bucket
distances along the child chain are strictly increasing, the query's
skip/visit/stop scan returns exactly the concatenated query results of
the children whose bucket distance `c` satisfies
`d - maxd ≤ c ≤ maxd + d` where `d = distance c0 ref` (truncated
subtraction gives the intersection with `[0, 32]` for free). -/
theorem C3_bk_node_visits_triangle_buckets (c0 : Nat) (ch : bkch) (ref maxd : Nat)
    (hsorted : bkchSortedFrom 0 ch) :
    query_bk (.node c0 ch) ref maxd
      = (if distance c0 ref ≤ maxd then [c0] else [])
        ++ ((bkchPairs ch).filter (fun p =>
              distance c0 ref - maxd ≤ p.1 ∧ p.1 ≤ maxd + distance c0 ref)).flatMap
            (fun p => query_bk p.2 ref maxd) := by
  show (if distance c0 ref ≤ maxd then [c0] else [])
      ++ bkScan ref maxd (distance c0 ref) true ch = _
  congr 1
  exact bkScan_sorted_eq ref maxd (distance c0 ref) ch 0 true hsorted (by simp)

theorem C3_witness :
    query_bk (bktree.node 0 (bkch.cons 1 (bktree.leaf [1])
        (bkch.cons 2 (bktree.leaf [3]) bkch.nil))) 0 1
      = (if distance 0 0 ≤ 1 then [0] else [])
        ++ ((bkchPairs (bkch.cons 1 (bktree.leaf [1])
              (bkch.cons 2 (bktree.leaf [3]) bkch.nil))).filter (fun p =>
              distance 0 0 - 1 ≤ p.1 ∧ p.1 ≤ 1 + distance 0 0)).flatMap
            (fun p => query_bk p.2 0 1) :=
  C3_bk_node_visits_triangle_buckets 0 (bkch.cons 1 (bktree.leaf [1])
    (bkch.cons 2 (bktree.leaf [3]) bkch.nil)) 0 1 ⟨Nat.one_pos, Nat.one_lt_two, trivial⟩

/-- Claim C5: in a VP internal-node build step over `rest` (the keys other
than the vantage `rootkey`, at least one of which is at nonzero distance
from it — the condition under which the loop is well defined), the loop
value `k = vpK` is the smallest `k` in `[1, 32]` whose cumulative count
`dcnt[k]` strictly exceeds `median = dcnt[0] + (n - dcnt[0]) / 2`, and the
stored threshold is `k - 1` exactly when `k ≠ 1` and
`median - dcnt[k-1] ≤ dcnt[k] - median`, else `k`. -/
theorem C5_vp_threshold_selection (rootkey : Nat) (rest : List Nat)
    (hroot : rootkey < 2 ^ 32) (hb : ∀ x ∈ rest, x < 2 ^ 32)
    (hx : ∃ x ∈ rest, distance rootkey x ≠ 0) :
    (1 ≤ vpK (cumDist rootkey rest) (vpMedian rootkey rest)
      ∧ vpK (cumDist rootkey rest) (vpMedian rootkey rest) ≤ 32
      ∧ vpMedian rootkey rest
          < cumDist rootkey rest (vpK (cumDist rootkey rest) (vpMedian rootkey rest))
      ∧ (∀ j, 1 ≤ j → j < vpK (cumDist rootkey rest) (vpMedian rootkey rest) →
          cumDist rootkey rest j ≤ vpMedian rootkey rest))
    ∧ vpThreshold rootkey rest
        = (if vpK (cumDist rootkey rest) (vpMedian rootkey rest) ≠ 1
              ∧ vpMedian rootkey rest
                  - cumDist rootkey rest
                      (vpK (cumDist rootkey rest) (vpMedian rootkey rest) - 1)
                ≤ cumDist rootkey rest
                      (vpK (cumDist rootkey rest) (vpMedian rootkey rest))
                  - vpMedian rootkey rest
            then vpK (cumDist rootkey rest) (vpMedian rootkey rest) - 1
            else vpK (cumDist rootkey rest) (vpMedian rootkey rest)) := by
  obtain ⟨h1, h2, h3, h4⟩ := vpK_spec (cumDist rootkey rest) (vpMedian rootkey rest)
  have h32 := vpK_le_32 rootkey rest hroot hb hx
  exact ⟨⟨h1, h32, h3 h32, h4⟩, rfl⟩

theorem C5_witness :
    (1 ≤ vpK (cumDist 0 [1, 3]) (vpMedian 0 [1, 3])
      ∧ vpK (cumDist 0 [1, 3]) (vpMedian 0 [1, 3]) ≤ 32
      ∧ vpMedian 0 [1, 3]
          < cumDist 0 [1, 3] (vpK (cumDist 0 [1, 3]) (vpMedian 0 [1, 3]))
      ∧ (∀ j, 1 ≤ j → j < vpK (cumDist 0 [1, 3]) (vpMedian 0 [1, 3]) →
          cumDist 0 [1, 3] j ≤ vpMedian 0 [1, 3]))
    ∧ vpThreshold 0 [1, 3]
        = (if vpK (cumDist 0 [1, 3]) (vpMedian 0 [1, 3]) ≠ 1
              ∧ vpMedian 0 [1, 3]
                  - cumDist 0 [1, 3] (vpK (cumDist 0 [1, 3]) (vpMedian 0 [1, 3]) - 1)
                ≤ cumDist 0 [1, 3] (vpK (cumDist 0 [1, 3]) (vpMedian 0 [1, 3]))
                  - vpMedian 0 [1, 3]
            then vpK (cumDist 0 [1, 3]) (vpMedian 0 [1, 3]) - 1
            else vpK (cumDist 0 [1, 3]) (vpMedian 0 [1, 3])) :=
  C5_vp_threshold_selection 0 [1, 3] (by decide) (by decide) (by decide)

/-- Claim C6 (amended: the placement loop walks the input left to right
while filling each bucket from its right end downwards, so within each
bucket the keys appear in the *reverse* of their input order — the sort
partitions correctly but is not stable): in a BK internal-node build step,
the segment of the scratch array belonging to distance `d` is exactly the
reversal of the subsequence of input keys at distance `d` from the
center. -/
theorem C6_counting_sort_partition (rootkey : Nat) (rest : List Nat) (d : Nat)
    (hd : 1 ≤ d) :
    ((bkTmp rootkey rest).drop (cumDist rootkey rest (d - 1))).take
        (cumDist rootkey rest d - cumDist rootkey rest (d - 1))
      = (rest.filter (fun x => distance rootkey x = d)).reverse := by
  rw [bkTmp_segment rootkey rest d hd]
  rfl

theorem C6_witness :
    ((bkTmp 0 [1, 2]).drop (cumDist 0 [1, 2] 0)).take
        (cumDist 0 [1, 2] 1 - cumDist 0 [1, 2] 0)
      = ([1, 2].filter (fun x => distance 0 x = 1)).reverse :=
  C6_counting_sort_partition 0 [1, 2] 1 (by decide)

/-- As stated the claim fails: the keys `1` and `2` are both at distance
`1` from the center `0`, and the sorted scratch array holds them as
`[2, 1]`, not in their input order `[1, 2]`. -/
theorem C6_stability_counterexample :
    ((bkTmp 0 [1, 2]).drop (cumDist 0 [1, 2] 0)).take
        (cumDist 0 [1, 2] 1 - cumDist 0 [1, 2] 0)
      ≠ [1, 2].filter (fun x => distance 0 x = 1) := by
  decide

/-- Claim C7: for all 32-bit keys `x`, `y`, `z`, the branch-free
`distance` equals the popcount of `x XOR y` — the number of bit positions
in `[0, 32)` where `x` and `y` differ — and is a metric bounded by 32:
`distance x x = 0`, symmetry, and the triangle inequality. -/
theorem C7_distance_metric_properties (x y z : Nat)
    (hx : x < 2 ^ 32) (hy : y < 2 ^ 32) (hz : z < 2 ^ 32) :
    distance x y = popCountSpec (x ^^^ y)
    ∧ distance x y = (List.range 32).countP (fun i => x.testBit i ^^ y.testBit i)
    ∧ distance x x = 0
    ∧ distance x y = distance y x
    ∧ distance x z ≤ distance x y + distance y z
    ∧ distance x y ≤ 32 := by
  refine ⟨distance_eq_popCountSpec x y hx hy, ?_, distance_self x,
    distance_comm x y, distance_triangle x y z hx hy hz, distance_le_32 x y hx hy⟩
  rw [distance_eq_popCountSpec x y hx hy,
      popCountSpec_eq_countP 32 (x ^^^ y) (Nat.xor_lt_two_pow hx hy)]
  exact List.countP_congr (fun i _ => by rw [Nat.testBit_xor])

theorem C7_witness :
    distance 5 3 = popCountSpec (5 ^^^ 3)
    ∧ distance 5 3 = (List.range 32).countP (fun i =>
        Nat.testBit 5 i ^^ Nat.testBit 3 i)
    ∧ distance 5 5 = 0
    ∧ distance 5 3 = distance 3 5
    ∧ distance 5 9 ≤ distance 5 3 + distance 3 9
    ∧ distance 5 3 ≤ 32 :=
  C7_distance_metric_properties 5 3 9 (by decide) (by decide) (by decide)

/-- Claim C8 (amended: the key set must be duplicate-free — with
duplicates the builds drop copies equal to a pivot, so an exact-match
query can return fewer copies than the input holds): for every
duplicate-free 32-bit key set, every `max_leaf_size ≥ 1` and every 32-bit
reference key, querying the built BK tree or VP tree with `maxd = 0`
returns exactly the keys of the set equal to `ref`. -/
theorem C8_exact_match_query (keys : List Nat) (ml ref : Nat) (hml : 1 ≤ ml)
    (hnd : keys.Nodup) (hb : ∀ x ∈ keys, x < 2 ^ 32) (href : ref < 2 ^ 32) :
    ((query_bk (mktree_bk keys ml) ref 0 : List Nat) : Multiset Nat)
        = ((keys.filter (fun k => k = ref) : List Nat) : Multiset Nat)
    ∧ ((query_vp (mktree_vp keys ml) ref 0 : List Nat) : Multiset Nat)
        = ((keys.filter (fun k => k = ref) : List Nat) : Multiset Nat) := by
  have hfe : ∀ x ∈ ((keys : List Nat) : Multiset Nat),
      distance ref x ≤ 0 ↔ x = ref := by
    intro x hx
    have hxk : x ∈ keys := by simpa using hx
    have hiff := distance_eq_zero_iff ref x href (hb x hxk)
    constructor
    · intro h
      have h0 : distance ref x = 0 := by omega
      exact (hiff.mp h0).symm
    · intro h
      subst h
      simp [distance_self]
  have hmf : Multiset.filter (fun x => distance ref x ≤ 0)
        ((keys : List Nat) : Multiset Nat)
      = ((keys.filter (fun k => k = ref) : List Nat) : Multiset Nat) := by
    rw [Multiset.filter_congr hfe, Multiset.filter_coe]
  constructor
  · rw [query_bk_correct (mktree_bk keys ml) ref 0 href
        (bk_build_inv keys.length keys ml le_rfl hb),
      bk_keys_multiset keys.length keys ml le_rfl hnd hb, hmf]
  · rw [query_vp_correct (mktree_vp keys ml) ref 0 href
        (vp_build_inv keys.length keys ml le_rfl hb),
      vp_keys_multiset keys.length keys ml le_rfl hnd hb, hmf]

theorem C8_witness :
    ((query_bk (mktree_bk [3, 5] 1) 5 0 : List Nat) : Multiset Nat)
        = (([3, 5].filter (fun k => k = 5) : List Nat) : Multiset Nat)
    ∧ ((query_vp (mktree_vp [3, 5] 1) 5 0 : List Nat) : Multiset Nat)
        = (([3, 5].filter (fun k => k = 5) : List Nat) : Multiset Nat) :=
  C8_exact_match_query [3, 5] 1 5 (by decide) (by decide) (by decide) (by decide)

/-- As stated ("zero, one, or many if duplicates exist") the claim fails:
for the input `[5, 5, 3]` the exact-match query for `5` on the built BK
tree returns one `5`, not two. -/
theorem C8_duplicates_counterexample :
    ¬(((query_bk (mktree_bk [5, 5, 3] 1) 5 0 : List Nat) : Multiset Nat)
        = (([5, 5, 3].filter (fun k => k = 5) : List Nat) : Multiset Nat)) := by
  decide

/-- Claim C9: in every tree built from `n ≥ 1` 32-bit keys, every leaf
holds at least one key and at most `max_leaf_size` keys unless it holds
exactly one (the one-key exception, which also covers `max_leaf_size` 0
or 1); and whether the root becomes a leaf is decided solely by comparing
the size of its key range with `max_leaf_size` (and with 1) — the same
test the recursion applies to every subrange. -/
theorem C9_leaf_size_bounds (keys : List Nat) (ml : Nat) (h1 : 1 ≤ keys.length)
    (hb : ∀ x ∈ keys, x < 2 ^ 32) :
    (∀ l ∈ bkLeaves (mktree_bk keys ml),
        1 ≤ l.length ∧ (l.length ≤ ml ∨ l.length = 1))
    ∧ (∀ l ∈ vpLeaves (mktree_vp keys ml),
        1 ≤ l.length ∧ (l.length ≤ ml ∨ l.length = 1))
    ∧ (bkIsLeaf (mktree_bk keys ml) = true ↔ (keys.length ≤ ml ∨ keys.length ≤ 1))
    ∧ (vpIsLeaf (mktree_vp keys ml) = true
        ↔ (keys.length ≤ ml ∨ keys.length ≤ 1)) := by
  have hne : keys ≠ [] := by
    intro h
    subst h
    simp at h1
  exact ⟨bk_leaf_sizes keys.length keys ml le_rfl h1,
    vp_leaf_sizes keys.length keys ml le_rfl h1 hb,
    bkIsLeaf_iff keys ml hne, vpIsLeaf_iff keys ml hne⟩

theorem C9_witness :
    (∀ l ∈ bkLeaves (mktree_bk [1, 2, 3] 2),
        1 ≤ l.length ∧ (l.length ≤ 2 ∨ l.length = 1))
    ∧ (∀ l ∈ vpLeaves (mktree_vp [1, 2, 3] 2),
        1 ≤ l.length ∧ (l.length ≤ 2 ∨ l.length = 1))
    ∧ (bkIsLeaf (mktree_bk [1, 2, 3] 2) = true
        ↔ ([1, 2, 3].length ≤ 2 ∨ [1, 2, 3].length ≤ 1))
    ∧ (vpIsLeaf (mktree_vp [1, 2, 3] 2) = true
        ↔ ([1, 2, 3].length ≤ 2 ∨ [1, 2, 3].length ≤ 1)) :=
  C9_leaf_size_bounds [1, 2, 3] 2 (by decide) (by decide)

/-- Claim C10 is refuted: for the input `[5, 5, 5]` with `max_leaf_size`
1 the build takes the internal-node branch (the guard
`n ≤ max_leaf_size ∨ n ≤ 1` fails), both remaining keys are at distance
0 from the vantage, and the threshold loop exits with `k = 33` — outside
`[1, 32]`, so the subsequent read of `dcnt[k]` is past the end of the
33-entry histogram. -/
theorem C10_vp_threshold_loop_overflow :
    ¬([5, 5, 5].length ≤ 1 ∨ [5, 5, 5].length ≤ 1)
    ∧ (∀ x ∈ [5, 5], distance 5 x = 0)
    ∧ vpK (cumDist 5 [5, 5]) (vpMedian 5 [5, 5]) = 33 := by
  decide
